import Mathlib

/-!
Shallow embedding of `scripts/deduplicate.py`: a tool that merges
bibliographic CSV exports and removes duplicate records, keyed first by a
normalized DOI and then by a normalized title, with source-precedence
tie-breaking.

Strings are modelled as their `List Char` data.  Python's `str.lower()` is
modelled by `Char.toLower` (ASCII case folding), `str.strip()` by trimming
`Char.isWhitespace` at both ends, the regex classes `\d`, `\S`, `\w` by
`Char.isDigit`, `!Char.isWhitespace` and `Char.isAlphanum || (· = '_')`.
-/

namespace Dedup

/-- Both-ends whitespace trim: model of Python `str.strip()`. -/
def stripWs (l : List Char) : List Char :=
  ((l.dropWhile Char.isWhitespace).reverse.dropWhile Char.isWhitespace).reverse

/-- Both-ends trim of `'.'` characters: model of Python `str.strip(".")`. -/
def stripDots (l : List Char) : List Char :=
  ((l.dropWhile (fun c => c = '.')).reverse.dropWhile (fun c => c = '.')).reverse

/-- Right trim of any character in `cs`: model of Python `str.rstrip(cs)`. -/
def rstripSet (cs : List Char) (l : List Char) : List Char :=
  (l.reverse.dropWhile (fun c => cs.contains c)).reverse

/-- The characters stripped from the tail of a DOI match: `rstrip(".,;)")`. -/
def rstripChars : List Char := ['.', ',', ';', ')']

/-- One left-to-right pass deleting non-overlapping occurrences of `pat`,
with explicit fuel (the recursion advances by at least one character per
step, so `l.length` fuel suffices).  Model of Python
`str.replace(pat, "")`. -/
def delOcc (pat : List Char) : Nat → List Char → List Char
  | 0, l => l
  | _ + 1, [] => []
  | fuel + 1, c :: cs =>
    if pat ≠ [] ∧ pat.isPrefixOf (c :: cs) then delOcc pat fuel ((c :: cs).drop pat.length)
    else c :: delOcc pat fuel cs

/-- Model of Python `l.replace(pat, "")`. -/
def pyReplaceDel (pat : List Char) (l : List Char) : List Char :=
  delOcc pat l.length l

/-- Does `pat` occur as a contiguous sublist of `l`?  (Model of Python
`pat in l` for nonempty `pat`.) -/
def hasOccur (pat : List Char) : List Char → Bool
  | [] => false
  | c :: cs => pat.isPrefixOf (c :: cs) || hasOccur pat cs

/-- Attempt of the regex `(10\.\d{4,9}/\S+)` anchored at the start of `l`.
The digit run is contiguous, so the bounded greedy `\d{4,9}` with
backtracking succeeds exactly when the full digit run has length 4..9 and
is followed by `/`; `\S+` then greedily takes the nonempty run of
non-whitespace characters. -/
def doiMatchAt (l : List Char) : Option (List Char) :=
  match l with
  | c1 :: c2 :: c3 :: rest =>
    if c1 = '1' ∧ c2 = '0' ∧ c3 = '.' then
      if 4 ≤ (rest.takeWhile Char.isDigit).length ∧ (rest.takeWhile Char.isDigit).length ≤ 9 then
        match rest.dropWhile Char.isDigit with
        | c4 :: tail =>
          if c4 = '/' then
            match tail.takeWhile (fun c => !c.isWhitespace) with
            | [] => none
            | c' :: sfx =>
              some ('1' :: '0' :: '.' :: (rest.takeWhile Char.isDigit ++ '/' :: c' :: sfx))
          else none
        | [] => none
      else none
    else none
  | _ => none

/-- Leftmost-first scan: model of `re.search(r"(10\.\d{4,9}/\S+)", l)`,
returning the matched group. -/
def reSearchDoi : List Char → Option (List Char)
  | [] => none
  | c :: cs =>
    match doiMatchAt (c :: cs) with
    | some g => some g
    | none => reSearchDoi cs

/-- The resolver URL prefixes deleted by `norm_doi`. -/
def httpsPat : List Char := "https://doi.org/".data

/-- The resolver URL prefixes deleted by `norm_doi`. -/
def httpPat : List Char := "http://doi.org/".data

/-- `norm_doi` on the character list of a string argument, following the
source line by line: strip + lowercase, delete the two resolver prefixes,
strip whitespace then strip dots, regex-search for the DOI pattern, and
right-strip `.,;)` from the match (empty list when there is no match). -/
def normDoiL (l : List Char) : List Char :=
  match reSearchDoi (stripDots (stripWs (pyReplaceDel httpPat (pyReplaceDel httpsPat
      ((stripWs l).map Char.toLower))))) with
  | some g => rstripSet rstripChars g
  | none => []

/-- Model of `norm_doi` from `scripts/deduplicate.py` on string input. -/
def norm_doi (s : String) : String :=
  String.mk (normDoiL s.data)

/-- Characters matched by the regex class `\w` (ASCII fragment). -/
def isWordChar (c : Char) : Bool := c.isAlphanum || c = '_'

/-- Collapse maximal whitespace runs to a single `' '` (state = previous
character was whitespace): model of `re.sub(r"\s+", " ", s)`. -/
def collapseGo : Bool → List Char → List Char
  | _, [] => []
  | inWs, c :: cs =>
    if c.isWhitespace then
      if inWs then collapseGo true cs else ' ' :: collapseGo true cs
    else c :: collapseGo false cs

/-- One character of `re.sub(r"[^\w\s]", " ", s)`: word and whitespace
characters survive, everything else becomes a space. -/
def punctToSpace (c : Char) : Char :=
  if isWordChar c || c.isWhitespace then c else ' '

/-- `norm_title` on the character list of a string argument: strip +
lowercase, replace each character that is neither `\w` nor `\s` by a
space, collapse whitespace runs, and strip. -/
def normTitleL (l : List Char) : List Char :=
  stripWs (collapseGo false (((stripWs l).map Char.toLower).map punctToSpace))

/-- Model of `norm_title` from `scripts/deduplicate.py` on string input. -/
def norm_title (s : String) : String :=
  String.mk (normTitleL s.data)

/-- The maximal runs of word characters of a list (the accumulator holds
the current run, reversed). -/
def wordsAcc : List Char → List Char → List (List Char)
  | cur, [] => if cur.isEmpty then [] else [cur.reverse]
  | cur, c :: cs =>
    if isWordChar c then wordsAcc (c :: cur) cs
    else if cur.isEmpty then wordsAcc [] cs else cur.reverse :: wordsAcc [] cs

/-- The maximal runs of word characters of a list. -/
def wordsOf (l : List Char) : List (List Char) := wordsAcc [] l

/-- The case-folded word runs of a title: two titles differing only in
letter case, punctuation or whitespace style have the same `titleWords`. -/
def titleWords (s : String) : List (List Char) :=
  wordsOf ((stripWs s.data).map Char.toLower)

/-- Join a list of words with single spaces. -/
def joinWords : List (List Char) → List Char
  | [] => []
  | [w] => w
  | w :: ws => w ++ ' ' :: joinWords ws

/-- Python `Series.map(f)` applies `f` also to missing values; the
`not isinstance(s, str)` branch of both normalizers returns `""`. -/
def normField (f : String → String) : Option String → String
  | none => ""
  | some s => f s

/-- Last index at which `s` occurs.  The dict comprehension
`{label: i for i, label in enumerate(precedence)}` keeps the last index
for a repeated label. -/
def lastIdxOf (s : String) : List String → Option Nat
  | [] => none
  | x :: xs =>
    match lastIdxOf s xs with
    | some i => some (i + 1)
    | none => if x = s then some 0 else none

/-- Model of `prec_map.get(s, 99)`: the position of a label in the
precedence list, or the constant fallback `99` for labels not listed. -/
def precRank (precedence : List String) (s : String) : Nat :=
  match lastIdxOf s precedence with
  | some i => i
  | none => 99

/-- One row as produced by `extract_standard`: the `source` tag plus the
five optional text fields (a missing column yields a missing value). -/
structure RawRow where
  source : String
  title : Option String
  authors : Option String
  year : Option String
  doi : Option String
  url : Option String
deriving DecidableEq, Repr

/-- One row of the merged frame, after `main` adds the derived columns
`title_norm`, `doi_norm` and `source_rank`. -/
structure StandardRecord where
  source : String
  title : Option String
  authors : Option String
  year : Option String
  doi : Option String
  url : Option String
  title_norm : String
  doi_norm : String
  source_rank : Nat
deriving DecidableEq, Repr

/-- The per-frame loop body of `main`: add the derived columns
`title_norm = title.map(norm_title)`, `doi_norm = doi.map(norm_doi)` and
`source_rank = prec_map.get(source, 99)`. -/
def addDerived (precedence : List String) (r : RawRow) : StandardRecord :=
  { source := r.source, title := r.title, authors := r.authors, year := r.year
    doi := r.doi, url := r.url
    title_norm := normField norm_title r.title
    doi_norm := normField norm_doi r.doi
    source_rank := precRank precedence r.source }

/-- `pd.concat(frames, ignore_index=True)`: one frame per input file, in
the order the inputs were given, rows in file order. -/
def buildMerged (precedence : List String) (frames : List (List RawRow)) : List StandardRecord :=
  (frames.map (fun f => f.map (addDerived precedence))).flatten

/-- The lexicographic comparison used by
`sort_values(by=[key, "source_rank"])`. -/
def pairLe (key : StandardRecord → String) (a b : StandardRecord) : Prop :=
  key a < key b ∨ (key a = key b ∧ a.source_rank ≤ b.source_rank)

instance (key : StandardRecord → String) : DecidableRel (pairLe key) := fun a b =>
  if h1 : key a < key b then isTrue (Or.inl h1)
  else if h2 : key a = key b then
    if h3 : a.source_rank ≤ b.source_rank then isTrue (Or.inr ⟨h2, h3⟩)
    else isFalse (by rintro (h | ⟨_, h⟩) <;> exact absurd h (by assumption))
  else isFalse (by rintro (h | ⟨h, _⟩) <;> exact absurd h (by assumption))

/-- Comparison by `source_rank` alone (used to describe the order of one
key group inside a lexicographically sorted frame). -/
def rankLe (a b : StandardRecord) : Prop := a.source_rank ≤ b.source_rank

instance : DecidableRel rankLe := fun a b =>
  inferInstanceAs (Decidable (a.source_rank ≤ b.source_rank))

/-- Model of `df.sort_values(by=[key, "source_rank"], na_position="last")`.
With more than one sort column pandas uses `lexsort_indexer`, a stable
lexicographic (mergesort-based) sort; we model it by the stable
`List.insertionSort`.  Neither key column contains missing values (both
normalizers and `prec_map.get` are total), so `na_position` is inert. -/
def sort_values (key : StandardRecord → String) (l : List StandardRecord) :
    List StandardRecord :=
  List.insertionSort (pairLe key) l

/-- `drop_duplicates(subset=[key], keep="first")`: keep the first
occurrence of every key, scanning left to right with the set of keys
already seen. -/
def dropDupGo (key : StandardRecord → String) (seen : List String) :
    List StandardRecord → List StandardRecord
  | [] => []
  | r :: rs =>
    if seen.contains (key r) then dropDupGo key seen rs
    else r :: dropDupGo key (key r :: seen) rs

/-- Model of `df.drop_duplicates(subset=[key], keep="first")`. -/
def drop_duplicates (key : StandardRecord → String) (l : List StandardRecord) :
    List StandardRecord :=
  dropDupGo key [] l

/-- The DOI tier of the dedup in `main`: sort the merged frame by
`(doi_norm, source_rank)`, keep the rows with a nonempty `doi_norm`
(`has_doi`), and drop duplicate `doi_norm` keys keeping the first. -/
def dedup_doi (merged : List StandardRecord) : List StandardRecord :=
  drop_duplicates (fun r => r.doi_norm)
    ((sort_values (fun r => r.doi_norm) merged).filter (fun r => r.doi_norm != ""))

/-- The full dedup of `main`: DOI tier, re-append the rows without a DOI
key (`no_doi`), sort by `(title_norm, source_rank)` and drop duplicate
`title_norm` keys keeping the first. -/
def dedup_all (merged : List StandardRecord) : List StandardRecord :=
  drop_duplicates (fun r => r.title_norm)
    (sort_values (fun r => r.title_norm)
      (dedup_doi merged ++
        (sort_values (fun r => r.doi_norm) merged).filter (fun r => r.doi_norm == "")))

/-- `compute_stats` (`value_counts`), read at one label: the number of
records carrying source label `s`. -/
def compute_stats (s : String) (l : List StandardRecord) : Nat :=
  (l.filter (fun r => r.source == s)).length

/-- The first record of minimal `source_rank` (earliest of the minima in
list order). -/
def firstMin : List StandardRecord → Option StandardRecord
  | [] => none
  | r :: rs =>
    match firstMin rs with
    | none => some r
    | some m => if r.source_rank ≤ m.source_rank then some r else some m

/-- The attribute names defined on the `argparse` result in `main`
(`--input`, `--out`, `--precedence`, `--print-stats`). -/
def argNamespaceAttrs : List String := ["input", "out", "precedence", "print_stats"]

/-- Python attribute lookup on the parsed-argument object: defined
attributes succeed, any other name raises `AttributeError`. -/
def getArgAttr (a : String) : Except String Unit :=
  if argNamespaceAttrs.contains a then Except.ok () else Except.error ("AttributeError: " ++ a)

/-- The one-line summary printed on normal completion. -/
def okLine (initialTotal finalTotal : Nat) (removed : Int) : String :=
  s!"[OK] Input total: {initialTotal} | Unique: {finalTotal} | Removed: {removed}"

/-- The tail of `main` after the output CSV is written: the lines printed,
paired with the exception escaping it (if any).  The condition of the
`if` statement is the expression `args.print-stats`, parsed as
`(args.print) - stats`; its evaluation first looks up the attribute
`print` on `args`, and even if that attribute existed, the bare name
`stats` is unbound (`NameError`). -/
def reportPhase (initialTotal finalTotal : Nat) : List String × Option String :=
  let removed : Int := (initialTotal : Int) - (finalTotal : Int)
  match getArgAttr "print" with
  | Except.error e => ([okLine initialTotal finalTotal removed], some e)
  | Except.ok _ => ([okLine initialTotal finalTotal removed], some "NameError: stats")

/-- The warning printed for an `--input` spec without a colon. -/
def warnLine (s : String) : String := "[WARN] input senza etichetta, salto: " ++ s

/-- Model of `":" in spec`. -/
def hasColon (s : String) : Bool := s.data.contains ':'

/-- Model of `spec.split(":", 1)`: the part before the first colon and
the part after it. -/
def splitFirstColon : List Char → List Char × List Char
  | [] => ([], [])
  | c :: cs =>
    if c = ':' then ([], cs)
    else
      let p := splitFirstColon cs
      (c :: p.1, p.2)

/-- `label, path = spec.split(":", 1)` followed by stripping both parts. -/
def parseOneInput (s : String) : String × String :=
  let p := splitFirstColon s.data
  (String.mk (stripWs p.1), String.mk (stripWs p.2))

/-- The input-collection loop of `main`: every spec containing a colon
contributes a `(label, path)` pair, every spec without one contributes a
warning and is skipped. -/
def parseInputs : List String → List (String × String) × List String
  | [] => ([], [])
  | s :: rest =>
    let p := parseInputs rest
    if hasColon s then (parseOneInput s :: p.1, p.2)
    else (p.1, warnLine s :: p.2)

/-- The membership test of one key group: `key r == k`. -/
def keyIs (key : StandardRecord → String) (k : String) (r : StandardRecord) : Bool :=
  key r == k

/-! ### Concrete instances used by witnesses and counterexamples -/

/-- A 100-label precedence list (labels `s` followed by one distinct
character); long enough that its last label has position 99. -/
def cexPrec : List String := (List.range 100).map (fun n => String.mk ['s', Char.ofNat (110 + n)])

/-- The last label of `cexPrec`, at position 99. -/
def cexLabel : String := String.mk ['s', Char.ofNat 209]

/-- A row whose source is the last label of `cexPrec`. -/
def cexRowRanked : RawRow :=
  { source := cexLabel, title := some "t1", authors := none, year := none
    doi := none, url := none }

/-- A row whose source is not in `cexPrec`. -/
def cexRowUnranked : RawRow :=
  { source := "unranked", title := some "t2", authors := none, year := none
    doi := none, url := none }

/-- The default precedence list of `--precedence`. -/
def defaultPrecedence : List String := ["Scopus", "IEEE Xplore", "ScienceDirect"]

/-- A Scopus row with a DOI (witness input). -/
def wRowScopus : RawRow :=
  { source := "Scopus", title := some "Foo", authors := none, year := none
    doi := some "10.1234/x", url := none }

/-- An IEEE Xplore row with the same DOI up to case (witness input). -/
def wRowIeee : RawRow :=
  { source := "IEEE Xplore", title := some "Foo Bar", authors := none, year := none
    doi := some "10.1234/X", url := none }

/-- A row from a source absent from the precedence list (witness input). -/
def wRowOtherA : RawRow :=
  { source := "ArXiv", title := some "Baz", authors := none, year := none
    doi := some "10.9999/q", url := none }

/-- A second row from another unranked source, same DOI (witness input). -/
def wRowOtherB : RawRow :=
  { source := "CORE", title := some "Baz Two", authors := none, year := none
    doi := some "10.9999/q", url := none }

/-! ### Theorems -/

/-- Helper: `parseInputs` splits over list append, componentwise. -/
theorem parseInputs_append (a b : List String) :
    parseInputs (a ++ b) =
      ((parseInputs a).1 ++ (parseInputs b).1, (parseInputs a).2 ++ (parseInputs b).2) := by
  induction a with
  | nil => simp [parseInputs]
  | cons s rest ih =>
    by_cases h : hasColon s <;> simp [parseInputs, ih, h]

/-- C4 (code_bug evidence): for every run that reaches the reporting step,
the only line printed is the one-line summary, after which the evaluation
of the `if` condition `args.print-stats` raises
`AttributeError` (`args` has no attribute `print`); the per-source
before/after counts are never printed, with or without the flag. -/
theorem report_phase_crash (i f : Nat) :
    reportPhase i f = ([okLine i f ((i : Int) - (f : Int))], some "AttributeError: print") :=
  rfl

/-- Helper: an `--input` value without a colon is skipped with a warning
and does not disturb the collection of the remaining inputs: the
collected `(label, path)` pairs are exactly those of the run without the
malformed spec, and the warning list gains exactly the one warning line,
in place. -/
theorem malformed_input_skipped (pre post : List String) (bad : String)
    (h : hasColon bad = false) :
    (parseInputs (pre ++ bad :: post)).1 = (parseInputs (pre ++ post)).1 ∧
    (parseInputs (pre ++ bad :: post)).2 =
      (parseInputs pre).2 ++ warnLine bad :: (parseInputs post).2 := by
  have e1 := parseInputs_append pre (bad :: post)
  have e2 := parseInputs_append pre post
  have ebad : parseInputs (bad :: post) =
      ((parseInputs post).1, warnLine bad :: (parseInputs post).2) := by
    simp [parseInputs, h]
  rw [e1, e2, ebad]
  exact ⟨rfl, rfl⟩

/-- C8 (counterexample to "the run still succeeds"): at a concrete run
with one colon-free `--input` value, the warning is emitted and exactly
that input skipped, the two well-formed inputs are collected — and yet
the run does not succeed: the reporting step raises `AttributeError`
(the `args.print-stats` condition evaluates `args.print`), so the
process exits with an uncaught exception. -/
theorem malformed_input_run_counterexample :
    parseInputs ["Scopus:a.csv", "nocolon", "IEEE Xplore:b.csv"] =
      ([("Scopus", "a.csv"), ("IEEE Xplore", "b.csv")], [warnLine "nocolon"]) ∧
    (reportPhase 2 2).2 = some "AttributeError: print" :=
  ⟨by decide, rfl⟩

/-- C8 (amended): an `--input` value without a colon is skipped with a
warning, the remaining well-formed inputs are collected and processed
unchanged — but the run does not succeed: whatever the record counts,
after the `[OK]` summary the reporting step exits with an uncaught
`AttributeError` raised by the `args.print-stats` condition. -/
theorem malformed_input_skipped_amended (pre post : List String) (bad : String)
    (h : hasColon bad = false) :
    ((parseInputs (pre ++ bad :: post)).1 = (parseInputs (pre ++ post)).1 ∧
      (parseInputs (pre ++ bad :: post)).2 =
        (parseInputs pre).2 ++ warnLine bad :: (parseInputs post).2) ∧
    ∀ i f : Nat, (reportPhase i f).2 = some "AttributeError: print" :=
  ⟨malformed_input_skipped pre post bad h, fun _ _ => rfl⟩

/-- Witness for C8 (amended) at a concrete run. -/
theorem malformed_input_skipped_amended_witness :
    hasColon "nocolon" = false ∧
    (((parseInputs (["Scopus:a.csv"] ++ "nocolon" :: ["IEEE Xplore:b.csv"])).1 =
        (parseInputs (["Scopus:a.csv"] ++ ["IEEE Xplore:b.csv"])).1 ∧
      (parseInputs (["Scopus:a.csv"] ++ "nocolon" :: ["IEEE Xplore:b.csv"])).2 =
        (parseInputs ["Scopus:a.csv"]).2 ++
          warnLine "nocolon" :: (parseInputs ["IEEE Xplore:b.csv"]).2) ∧
      ∀ i f : Nat, (reportPhase i f).2 = some "AttributeError: print") :=
  ⟨by decide,
    malformed_input_skipped_amended ["Scopus:a.csv"] ["IEEE Xplore:b.csv"] "nocolon" (by decide)⟩

/-- Helper: a label that occurs nowhere in the list has no last index. -/
theorem lastIdxOf_eq_none {s : String} {l : List String} (h : s ∉ l) :
    lastIdxOf s l = none := by
  induction l with
  | nil => rfl
  | cons x xs ih =>
    have hx : x ≠ s := fun e => h (e ▸ List.mem_cons_self x xs)
    have hxs : s ∉ xs := fun e => h (List.mem_cons_of_mem x e)
    simp [lastIdxOf, ih hxs, hx]

/-- Helper: a label occurring in the list has a last index below the
list's length. -/
theorem lastIdxOf_lt_length {s : String} {l : List String} (h : s ∈ l) :
    ∃ i, lastIdxOf s l = some i ∧ i < l.length := by
  induction l with
  | nil => cases h
  | cons x xs ih =>
    by_cases hx : s ∈ xs
    · obtain ⟨i, hi, hlt⟩ := ih hx
      exact ⟨i + 1, by simp [lastIdxOf, hi], by simpa using Nat.succ_lt_succ hlt⟩
    · have hxe : x = s := by
        rcases List.mem_cons.mp h with h' | h'
        · exact h'.symm
        · exact absurd h' hx
      exact ⟨0, by simp [lastIdxOf, lastIdxOf_eq_none hx, hxe], by simp⟩

/-- Helper: every record of the merged frame is `addDerived` of some raw
row, so its derived columns are consistent with its stored fields. -/
theorem mem_buildMerged {precedence : List String} {frames : List (List RawRow)}
    {r : StandardRecord} (h : r ∈ buildMerged precedence frames) :
    ∃ raw, r = addDerived precedence raw := by
  unfold buildMerged at h
  rw [List.mem_flatten] at h
  obtain ⟨l, hl, hr⟩ := h
  rw [List.mem_map] at hl
  obtain ⟨f, _, rfl⟩ := hl
  rw [List.mem_map] at hr
  obtain ⟨raw, _, rfl⟩ := hr
  exact ⟨raw, rfl⟩

/-- Helper: the derived rank column is `precRank` of the source label. -/
theorem source_rank_eq {precedence : List String} {frames : List (List RawRow)}
    {r : StandardRecord} (h : r ∈ buildMerged precedence frames) :
    r.source_rank = precRank precedence r.source := by
  obtain ⟨raw, rfl⟩ := mem_buildMerged h
  rfl

/-- C5 (amended): provided the precedence list has at most 99 entries —
the fallback rank is the constant `99`, not one-greater-than-the-maximum —
a record whose source label is absent from the list has rank `99`,
strictly greater than the rank of every record whose source label is in
the list. -/
theorem unranked_source_rank_amended (precedence : List String)
    (frames : List (List RawRow)) (r1 r2 : StandardRecord)
    (hlen : precedence.length ≤ 99)
    (h1 : r1 ∈ buildMerged precedence frames) (h2 : r2 ∈ buildMerged precedence frames)
    (hout : r1.source ∉ precedence) (hin : r2.source ∈ precedence) :
    r2.source_rank < r1.source_rank := by
  obtain ⟨i, hi, hlt⟩ := lastIdxOf_lt_length hin
  have e2 : precRank precedence r2.source = i := by simp [precRank, hi]
  have e1 : precRank precedence r1.source = 99 := by simp [precRank, lastIdxOf_eq_none hout]
  rw [source_rank_eq h1, source_rank_eq h2, e1, e2]
  omega

/-- Witness for C5 (amended) at a concrete run. -/
theorem unranked_source_rank_amended_witness :
    defaultPrecedence.length ≤ 99 ∧
    addDerived defaultPrecedence wRowOtherA ∈
      buildMerged defaultPrecedence [[wRowScopus], [wRowOtherA]] ∧
    addDerived defaultPrecedence wRowScopus ∈
      buildMerged defaultPrecedence [[wRowScopus], [wRowOtherA]] ∧
    (addDerived defaultPrecedence wRowOtherA).source ∉ defaultPrecedence ∧
    (addDerived defaultPrecedence wRowScopus).source ∈ defaultPrecedence ∧
    (addDerived defaultPrecedence wRowScopus).source_rank <
      (addDerived defaultPrecedence wRowOtherA).source_rank :=
  ⟨by decide, by decide, by decide, by decide, by decide,
    unranked_source_rank_amended defaultPrecedence [[wRowScopus], [wRowOtherA]]
      (addDerived defaultPrecedence wRowOtherA) (addDerived defaultPrecedence wRowScopus)
      (by decide) (by decide) (by decide) (by decide) (by decide)⟩

/-- Counterexample to C5 as stated: with a 100-label precedence list, the
source at position 99 of the list and an unlisted source both get rank
`99`, so the unlisted record's rank is not strictly greater. -/
theorem unranked_source_rank_counterexample :
    cexLabel ∈ cexPrec ∧ "unranked" ∉ cexPrec ∧
    (addDerived cexPrec cexRowRanked).source ∈ cexPrec ∧
    (addDerived cexPrec cexRowUnranked).source ∉ cexPrec ∧
    ¬ (addDerived cexPrec cexRowRanked).source_rank <
        (addDerived cexPrec cexRowUnranked).source_rank := by
  decide

/-- Counterexample to C6 as stated: `norm_doi` is not idempotent.  On
`"10.4444/;"` the first pass right-strips the `;` and returns
`"10.4444/"`; on that output the regex no longer matches (no non-space
character follows the slash), so the second pass returns `""`. -/
theorem norm_doi_not_idempotent :
    norm_doi (norm_doi "10.4444/;") ≠ norm_doi "10.4444/;" := by
  decide

/-- Helper: valid codepoints round-trip through `Char.ofNat`. -/
theorem char_toNat_ofNat {n : Nat} (h : n.isValidChar) : (Char.ofNat n).toNat = n := by
  unfold Char.ofNat
  rw [dif_pos h]
  rfl

/-- Helper: `Char.toLower` on an ASCII uppercase letter adds 32. -/
theorem toLower_toNat_of_upper {c : Char} (h : 65 ≤ c.toNat ∧ c.toNat ≤ 90) :
    (Char.toLower c).toNat = c.toNat + 32 := by
  simp only [Char.toLower]
  rw [if_pos h]
  exact char_toNat_ofNat (Or.inl (by omega))

/-- Helper: `Char.toLower` fixes every character outside `A`..`Z`. -/
theorem toLower_eq_self_of_not_upper {c : Char} (h : ¬(65 ≤ c.toNat ∧ c.toNat ≤ 90)) :
    Char.toLower c = c := by
  simp only [Char.toLower]
  rw [if_neg h]

/-- Helper: the image of `Char.toLower` avoids `A`..`Z` (codepoints 65-90). -/
theorem toLower_not_upper (c : Char) :
    ¬(65 ≤ (Char.toLower c).toNat ∧ (Char.toLower c).toNat ≤ 90) := by
  by_cases h : 65 ≤ c.toNat ∧ c.toNat ≤ 90
  · rw [toLower_toNat_of_upper h]
    omega
  · rw [toLower_eq_self_of_not_upper h]
    exact h

/-- Helper: `Char.toLower` is idempotent. -/
theorem toLower_toLower (c : Char) : Char.toLower (Char.toLower c) = Char.toLower c :=
  toLower_eq_self_of_not_upper (toLower_not_upper c)

/-- Helper: decimal digits are not whitespace. -/
theorem ws_false_of_isDigit {c : Char} (h : c.isDigit = true) : c.isWhitespace = false := by
  cases hw : c.isWhitespace
  · rfl
  · exfalso
    simp only [Char.isWhitespace, Bool.or_eq_true, decide_eq_true_eq] at hw
    rcases hw with ((h' | h') | h') | h' <;> subst h' <;> exact absurd h (by decide)

/-- Helper: a list whose head fails the predicate is fixed by `dropWhile`. -/
theorem dropWhile_eq_self_of_head {p : Char → Bool} {l : List Char}
    (h : ∀ c, l.head? = some c → p c = false) : l.dropWhile p = l := by
  cases l with
  | nil => rfl
  | cons c cs => exact List.dropWhile_cons_of_neg (by simp [h c rfl])

/-- Helper: both-ends trimming fixes a list whose two ends fail the
predicate. -/
theorem trim_eq_self {p : Char → Bool} {l : List Char}
    (h1 : ∀ c, l.head? = some c → p c = false)
    (h2 : ∀ c, l.getLast? = some c → p c = false) :
    ((l.dropWhile p).reverse.dropWhile p).reverse = l := by
  rw [dropWhile_eq_self_of_head h1]
  rw [dropWhile_eq_self_of_head (fun c hc => h2 c (by rwa [List.head?_reverse] at hc))]
  exact l.reverse_reverse

/-- Helper: membership in a head-element option implies list membership. -/
theorem mem_of_head?_eq {l : List Char} {c : Char} (h : l.head? = some c) : c ∈ l := by
  cases l with
  | nil => cases h
  | cons x xs =>
    simp only [List.head?_cons, Option.some.injEq] at h
    exact h ▸ List.mem_cons_self x xs

/-- Helper: membership in a last-element option implies list membership. -/
theorem mem_of_getLast?_eq {l : List Char} {c : Char} (h : l.getLast? = some c) : c ∈ l := by
  rw [← List.head?_reverse] at h
  exact List.mem_reverse.mp (mem_of_head?_eq h)

/-- Helper: `stripWs` fixes a list with no whitespace at all. -/
theorem stripWs_eq_self {l : List Char} (h : ∀ c ∈ l, c.isWhitespace = false) :
    stripWs l = l :=
  trim_eq_self (fun c hc => h c (mem_of_head?_eq hc)) (fun c hc => h c (mem_of_getLast?_eq hc))

/-- Helper: `stripDots` fixes a list whose two ends are not dots. -/
theorem stripDots_eq_self {l : List Char}
    (h1 : ∀ c, l.head? = some c → c ≠ '.')
    (h2 : ∀ c, l.getLast? = some c → c ≠ '.') :
    stripDots l = l :=
  trim_eq_self (fun c hc => by simp [h1 c hc]) (fun c hc => by simp [h2 c hc])

/-- Helper: `stripWs` only removes characters. -/
theorem mem_of_mem_stripWs {l : List Char} {c : Char} (h : c ∈ stripWs l) : c ∈ l := by
  unfold stripWs at h
  rw [List.mem_reverse] at h
  have h2 := (List.dropWhile_sublist _).subset h
  rw [List.mem_reverse] at h2
  exact (List.dropWhile_sublist _).subset h2

/-- Helper: `stripDots` only removes characters. -/
theorem mem_of_mem_stripDots {l : List Char} {c : Char} (h : c ∈ stripDots l) : c ∈ l := by
  unfold stripDots at h
  rw [List.mem_reverse] at h
  have h2 := (List.dropWhile_sublist _).subset h
  rw [List.mem_reverse] at h2
  exact (List.dropWhile_sublist _).subset h2

/-- Helper: `rstripSet` fixes a list whose last character is not in the
strip set. -/
theorem rstripSet_eq_self {cs l : List Char}
    (h : ∀ c, l.getLast? = some c → cs.contains c = false) :
    rstripSet cs l = l := by
  unfold rstripSet
  rw [dropWhile_eq_self_of_head (fun c hc => h c (by rwa [List.head?_reverse] at hc))]
  exact l.reverse_reverse

/-- Helper: `rstripSet` only removes characters. -/
theorem mem_of_mem_rstripSet {cs l : List Char} {c : Char} (h : c ∈ rstripSet cs l) : c ∈ l := by
  unfold rstripSet at h
  rw [List.mem_reverse] at h
  have h2 := (List.dropWhile_sublist _).subset h
  exact List.mem_reverse.mp h2

/-- Helper: the last character surviving `rstripSet` is not in the strip
set. -/
theorem rstripSet_getLast {cs l : List Char} {c : Char}
    (h : (rstripSet cs l).getLast? = some c) : cs.contains c = false := by
  unfold rstripSet at h
  rw [List.getLast?_reverse] at h
  have hd := List.head?_dropWhile_not (fun c => cs.contains c) l.reverse
  rw [h] at hd
  exact hd

/-- Helper: `rstripSet` over an append whose left part ends in a
non-stripped character acts on the right part only. -/
theorem rstripSet_append {cs a b : List Char} {d : Char}
    (ha : a.getLast? = some d) (hd : cs.contains d = false) :
    rstripSet cs (a ++ b) = a ++ rstripSet cs b := by
  unfold rstripSet
  rw [List.reverse_append, List.dropWhile_append]
  by_cases hb : (b.reverse.dropWhile (fun c => cs.contains c)).isEmpty
  · rw [if_pos hb]
    rw [dropWhile_eq_self_of_head (fun c hc => by
      rw [List.head?_reverse, ha] at hc
      exact Option.some.inj hc ▸ hd)]
    rw [List.isEmpty_iff] at hb
    rw [hb]
    simp
  · rw [if_neg hb, List.reverse_append, List.reverse_reverse]

/-- Helper: a replace pass is the identity when the pattern does not
occur. -/
theorem delOcc_of_no_occur {pat : List Char} :
    ∀ (fuel : Nat) (l : List Char), hasOccur pat l = false → delOcc pat fuel l = l
  | 0, _, _ => rfl
  | _ + 1, [], _ => rfl
  | fuel + 1, c :: cs, h => by
    unfold hasOccur at h
    rw [Bool.or_eq_false_iff] at h
    unfold delOcc
    rw [if_neg (by simp [h.1])]
    rw [delOcc_of_no_occur fuel cs h.2]

/-- Helper: a replace pass only removes characters. -/
theorem mem_of_mem_delOcc {pat : List Char} :
    ∀ (fuel : Nat) (l : List Char) (c : Char), c ∈ delOcc pat fuel l → c ∈ l
  | 0, _, _, h => h
  | _ + 1, [], _, h => h
  | fuel + 1, x :: xs, c, h => by
    unfold delOcc at h
    split at h
    · exact (List.drop_sublist pat.length (x :: xs)).subset (mem_of_mem_delOcc fuel _ c h)
    · rcases List.mem_cons.mp h with rfl | h'
      · exact List.mem_cons_self _ _
      · exact List.mem_cons_of_mem _ (mem_of_mem_delOcc fuel xs c h')

/-- Helper: the shape of a successful anchored regex match: the group is
`10.` followed by 4..9 digits, a slash and a nonempty run of non-space
characters, and every group character is a character of the input. -/
theorem doiMatchAt_some {l g : List Char} (h : doiMatchAt l = some g) :
    ∃ ds c' sfx, g = '1' :: '0' :: '.' :: (ds ++ '/' :: c' :: sfx) ∧
      (∀ c ∈ ds, c.isDigit = true) ∧ 4 ≤ ds.length ∧ ds.length ≤ 9 ∧
      (∀ c ∈ c' :: sfx, c.isWhitespace = false) ∧ (∀ c ∈ g, c ∈ l) := by
  match l with
  | [] => exact absurd h (by simp [doiMatchAt])
  | [c1] => exact absurd h (by simp [doiMatchAt])
  | [c1, c2] => exact absurd h (by simp [doiMatchAt])
  | c1 :: c2 :: c3 :: rest =>
    rw [doiMatchAt] at h
    by_cases h123 : c1 = '1' ∧ c2 = '0' ∧ c3 = '.'
    · obtain ⟨rfl, rfl, rfl⟩ := h123
      rw [if_pos ⟨rfl, rfl, rfl⟩] at h
      by_cases hlen : 4 ≤ (rest.takeWhile Char.isDigit).length ∧
          (rest.takeWhile Char.isDigit).length ≤ 9
      · rw [if_pos hlen] at h
        cases hafter : rest.dropWhile Char.isDigit with
        | nil => rw [hafter] at h; cases h
        | cons c4 tail =>
          rw [hafter] at h
          dsimp only at h
          by_cases hc4 : c4 = '/'
          · subst hc4
            rw [if_pos rfl] at h
            cases htw : tail.takeWhile (fun c => !c.isWhitespace) with
            | nil => rw [htw] at h; cases h
            | cons c' sfx =>
              rw [htw] at h
              have hg := Option.some.inj h
              refine ⟨rest.takeWhile Char.isDigit, c', sfx, hg.symm, ?_, hlen.1, hlen.2, ?_, ?_⟩
              · intro c hc; exact List.mem_takeWhile_imp hc
              · intro c hc
                have hm : c ∈ tail.takeWhile (fun c => !c.isWhitespace) := htw ▸ hc
                have := List.mem_takeWhile_imp hm
                simpa using this
              · intro c hc
                rw [← hg] at hc
                have htail : ∀ x, x ∈ tail → x ∈ rest := by
                  intro x hx
                  have hx2 : x ∈ '/' :: tail := List.mem_cons_of_mem _ hx
                  rw [← hafter] at hx2
                  exact (List.dropWhile_sublist _).subset hx2
                have hslash : ('/' : Char) ∈ rest := by
                  have hm : ('/' : Char) ∈ '/' :: tail := List.mem_cons_self _ _
                  rw [← hafter] at hm
                  exact (List.dropWhile_sublist _).subset hm
                rcases List.mem_cons.mp hc with rfl | hc
                · exact List.mem_cons_self _ _
                rcases List.mem_cons.mp hc with rfl | hc
                · exact List.mem_cons_of_mem _ (List.mem_cons_self _ _)
                rcases List.mem_cons.mp hc with rfl | hc
                · exact List.mem_cons_of_mem _ (List.mem_cons_of_mem _ (List.mem_cons_self _ _))
                refine List.mem_cons_of_mem _ (List.mem_cons_of_mem _ (List.mem_cons_of_mem _ ?_))
                rcases List.mem_append.mp hc with hc | hc
                · exact (List.takeWhile_sublist _).subset hc
                rcases List.mem_cons.mp hc with rfl | hc
                · exact hslash
                · exact htail c ((List.takeWhile_sublist _).subset (htw.symm ▸ hc))
          · rw [if_neg hc4] at h; cases h
      · rw [if_neg hlen] at h; cases h
    · rw [if_neg h123] at h; cases h

/-- Helper: the shape of a successful regex search anywhere in the
input. -/
theorem reSearchDoi_some {l g : List Char} (h : reSearchDoi l = some g) :
    ∃ ds c' sfx, g = '1' :: '0' :: '.' :: (ds ++ '/' :: c' :: sfx) ∧
      (∀ c ∈ ds, c.isDigit = true) ∧ 4 ≤ ds.length ∧ ds.length ≤ 9 ∧
      (∀ c ∈ c' :: sfx, c.isWhitespace = false) ∧ (∀ c ∈ g, c ∈ l) := by
  induction l with
  | nil => cases h
  | cons x xs ih =>
    rw [reSearchDoi] at h
    cases hm : doiMatchAt (x :: xs) with
    | some g0 =>
      rw [hm] at h
      have hg := Option.some.inj h
      subst hg
      exact doiMatchAt_some hm
    | none =>
      rw [hm] at h
      obtain ⟨ds, c', sfx, e, hd, h4, h9, hn, hmem⟩ := ih h
      exact ⟨ds, c', sfx, e, hd, h4, h9, hn, fun c hc => List.mem_cons_of_mem _ (hmem c hc)⟩

/-- Helper: the anchored regex match succeeds on a canonical-form input
and returns all of it. -/
theorem doiMatchAt_canonical {ds sfx : List Char}
    (hds : ∀ c ∈ ds, c.isDigit = true) (h4 : 4 ≤ ds.length) (h9 : ds.length ≤ 9)
    (hne : sfx ≠ []) (hnws : ∀ c ∈ sfx, c.isWhitespace = false) :
    doiMatchAt ('1' :: '0' :: '.' :: (ds ++ '/' :: sfx)) =
      some ('1' :: '0' :: '.' :: (ds ++ '/' :: sfx)) := by
  have hdsb : ∀ c ∈ ds, Char.isDigit c = true := hds
  have ht : (ds ++ '/' :: sfx).takeWhile Char.isDigit = ds := by
    rw [List.takeWhile_append_of_pos hdsb, List.takeWhile_cons_of_neg (by decide)]
    simp
  have hd : (ds ++ '/' :: sfx).dropWhile Char.isDigit = '/' :: sfx := by
    rw [List.dropWhile_append_of_pos hdsb, List.dropWhile_cons_of_neg (by decide)]
  have hsfx : sfx.takeWhile (fun c => !c.isWhitespace) = sfx := by
    have e : (sfx ++ ([] : List Char)).takeWhile (fun c => !c.isWhitespace) =
        sfx ++ ([] : List Char).takeWhile (fun c => !c.isWhitespace) :=
      List.takeWhile_append_of_pos (by intro a ha; simp [hnws a ha])
    simpa using e
  rw [doiMatchAt, if_pos ⟨rfl, rfl, rfl⟩, ht, hd, if_pos ⟨h4, h9⟩]
  dsimp only
  rw [if_pos rfl, hsfx]
  cases sfx with
  | nil => exact absurd rfl hne
  | cons c' s' => rfl

/-- Helper: the field of a packed string. -/
theorem data_mk (l : List Char) : (String.mk l).data = l := rfl

/-- Helper: the characters of `norm_doi` output are `normDoiL` of the
input characters. -/
theorem data_norm_doi (s : String) : (norm_doi s).data = normDoiL s.data := by
  unfold norm_doi
  exact data_mk _

/-- Helper: mapping `Char.toLower` fixes a list of already-lowercased
characters. -/
theorem map_toLower_eq_self {l : List Char} (h : ∀ c ∈ l, ∃ c0, c = Char.toLower c0) :
    l.map Char.toLower = l := by
  induction l with
  | nil => rfl
  | cons x xs ih =>
    obtain ⟨c0, e⟩ := h x (List.mem_cons_self _ _)
    rw [List.map_cons, ih (fun c hc => h c (List.mem_cons_of_mem _ hc)), e, toLower_toLower]

/-- Helper: the shape of every `normDoiL` output: empty, or `10.` +
4..9 digits + `/` + suffix, with no whitespace anywhere, every character
in the image of `Char.toLower`, and a last character not in `.,;)`. -/
theorem normDoiL_structure (l : List Char) :
    normDoiL l = [] ∨
    ∃ ds sfx, normDoiL l = '1' :: '0' :: '.' :: (ds ++ '/' :: sfx) ∧
      (∀ c ∈ ds, c.isDigit = true) ∧ 4 ≤ ds.length ∧ ds.length ≤ 9 ∧
      (∀ c ∈ sfx, c.isWhitespace = false) ∧
      (∀ c ∈ normDoiL l, c.isWhitespace = false) ∧
      (∀ c ∈ normDoiL l, ∃ c0, c = Char.toLower c0) ∧
      (∀ c, (normDoiL l).getLast? = some c → rstripChars.contains c = false) := by
  cases hre : reSearchDoi (stripDots (stripWs (pyReplaceDel httpPat (pyReplaceDel httpsPat
      ((stripWs l).map Char.toLower))))) with
  | none => left; unfold normDoiL; rw [hre]
  | some g =>
    right
    have en : normDoiL l = rstripSet rstripChars g := by unfold normDoiL; rw [hre]
    obtain ⟨ds, c', sfx0, rfl, hds, h4, h9, hnws0, hmem⟩ := reSearchDoi_some hre
    have eg : '1' :: '0' :: '.' :: (ds ++ '/' :: c' :: sfx0) =
        ('1' :: '0' :: '.' :: ds ++ ['/']) ++ (c' :: sfx0) := by simp
    have er : rstripSet rstripChars ('1' :: '0' :: '.' :: (ds ++ '/' :: c' :: sfx0)) =
        ('1' :: '0' :: '.' :: ds ++ ['/']) ++ rstripSet rstripChars (c' :: sfx0) := by
      rw [eg]
      exact rstripSet_append (List.getLast?_concat _) (by decide)
    have eshape : normDoiL l =
        '1' :: '0' :: '.' :: (ds ++ '/' :: rstripSet rstripChars (c' :: sfx0)) := by
      rw [en, er]; simp
    have hsfx_sub : ∀ c ∈ rstripSet rstripChars (c' :: sfx0), c ∈ c' :: sfx0 :=
      fun c hc => mem_of_mem_rstripSet hc
    have hall_ws : ∀ c ∈ normDoiL l, c.isWhitespace = false := by
      intro c hc
      rw [eshape] at hc
      rcases List.mem_cons.mp hc with rfl | hc
      · decide
      rcases List.mem_cons.mp hc with rfl | hc
      · decide
      rcases List.mem_cons.mp hc with rfl | hc
      · decide
      rcases List.mem_append.mp hc with hc | hc
      · exact ws_false_of_isDigit (hds c hc)
      rcases List.mem_cons.mp hc with rfl | hc
      · decide
      · exact hnws0 c (hsfx_sub c hc)
    refine ⟨ds, rstripSet rstripChars (c' :: sfx0), eshape, hds, h4, h9,
      fun c hc => hnws0 c (hsfx_sub c hc), hall_ws, ?_, ?_⟩
    · intro c hc
      rw [en] at hc
      have hg : c ∈ '1' :: '0' :: '.' :: (ds ++ '/' :: c' :: sfx0) := mem_of_mem_rstripSet hc
      have hs4 := hmem c hg
      have hm1 := mem_of_mem_stripWs (mem_of_mem_stripDots hs4)
      simp only [pyReplaceDel] at hm1
      have hm2 := mem_of_mem_delOcc _ _ _ hm1
      have hm3 := mem_of_mem_delOcc _ _ _ hm2
      obtain ⟨c0, _, e0⟩ := List.mem_map.mp hm3
      exact ⟨c0, e0.symm⟩
    · intro c hc
      rw [en] at hc
      exact rstripSet_getLast hc

/-- C6 (amended): `norm_doi` is idempotent at every string whose
normalized output embeds no DOI-resolver prefix (`http://doi.org/` or
`https://doi.org/`) and does not end in `/` — the two failure modes: a
resolver prefix inside the output is deleted by the second pass's
`replace`, and an output ending in `/` (suffix entirely stripped by
`rstrip(".,;)")`) no longer matches the regex, so the second pass returns
the empty string. -/
theorem norm_doi_idempotent_amended (s : String)
    (h1 : hasOccur httpsPat (norm_doi s).data = false)
    (h2 : hasOccur httpPat (norm_doi s).data = false)
    (h3 : (norm_doi s).data.getLast? ≠ some '/') :
    norm_doi (norm_doi s) = norm_doi s := by
  rcases normDoiL_structure s.data with hempty |
    ⟨ds, sfx, eshape, hds, h4, h9, hnws, hall, hlow, hlast⟩
  · have hz : norm_doi s = "" := by
      unfold norm_doi; rw [hempty]
    rw [hz]
    rfl
  · have hdata : (norm_doi s).data = '1' :: '0' :: '.' :: (ds ++ '/' :: sfx) := by
      rw [data_norm_doi]; exact eshape
    have hall' : ∀ c ∈ (norm_doi s).data, c.isWhitespace = false := by
      rw [data_norm_doi]; exact hall
    have hlow' : ∀ c ∈ (norm_doi s).data, ∃ c0, c = Char.toLower c0 := by
      rw [data_norm_doi]; exact hlow
    have hlast' : ∀ c, (norm_doi s).data.getLast? = some c →
        rstripChars.contains c = false := by
      rw [data_norm_doi]; exact hlast
    have hsne : sfx ≠ [] := by
      intro hnil
      apply h3
      rw [hdata, hnil]
      have e2 : ('1' :: '0' :: '.' :: (ds ++ ['/'])) = ('1' :: '0' :: '.' :: ds) ++ ['/'] := by
        simp
      rw [e2, List.getLast?_concat]
    have step1 : stripWs (norm_doi s).data = (norm_doi s).data := stripWs_eq_self hall'
    have step2 : ((norm_doi s).data).map Char.toLower = (norm_doi s).data :=
      map_toLower_eq_self hlow'
    have step3 : pyReplaceDel httpsPat (norm_doi s).data = (norm_doi s).data :=
      delOcc_of_no_occur _ _ h1
    have step4 : pyReplaceDel httpPat (norm_doi s).data = (norm_doi s).data :=
      delOcc_of_no_occur _ _ h2
    have step5 : stripDots (norm_doi s).data = (norm_doi s).data := by
      apply stripDots_eq_self
      · intro c hch
        rw [hdata] at hch
        simp only [List.head?_cons, Option.some.injEq] at hch
        subst hch
        decide
      · intro c hcl hdot
        subst hdot
        exact absurd (hlast' _ hcl) (by decide)
    have hmatch : reSearchDoi (norm_doi s).data = some ((norm_doi s).data) := by
      rw [hdata, reSearchDoi, doiMatchAt_canonical hds h4 h9 hsne hnws]
    have hrstrip : rstripSet rstripChars (norm_doi s).data = (norm_doi s).data :=
      rstripSet_eq_self hlast'
    have efinal : normDoiL (norm_doi s).data = (norm_doi s).data := by
      unfold normDoiL
      rw [step1, step2, step3, step4, step1, step5, hmatch]
      exact hrstrip
    show String.mk (normDoiL (norm_doi s).data) = norm_doi s
    rw [efinal]

/-- Witness for C6 (amended) at the spec's own example input. -/
theorem norm_doi_idempotent_amended_witness :
    (hasOccur httpsPat (norm_doi "https://doi.org/10.1109/ABC.2020.123.").data = false ∧
      hasOccur httpPat (norm_doi "https://doi.org/10.1109/ABC.2020.123.").data = false ∧
      (norm_doi "https://doi.org/10.1109/ABC.2020.123.").data.getLast? ≠ some '/') ∧
    norm_doi (norm_doi "https://doi.org/10.1109/ABC.2020.123.") =
      norm_doi "https://doi.org/10.1109/ABC.2020.123." :=
  ⟨⟨by decide, by decide, by decide⟩,
    norm_doi_idempotent_amended _ (by decide) (by decide) (by decide)⟩

/-- C10: for every input value (including non-string/missing), the
normalized DOI key is either empty or canonical: it starts with `10.`
followed by 4..9 digits and a `/`, contains no whitespace and no
uppercase ASCII letter (codepoints 65..90 are `A`..`Z`), and does not end
in `.`, `,`, `;` or `)`. -/
theorem norm_doi_canonical_form (os : Option String) :
    normField norm_doi os = "" ∨
    ((∃ ds sfx, (normField norm_doi os).data = '1' :: '0' :: '.' :: (ds ++ '/' :: sfx) ∧
        4 ≤ ds.length ∧ ds.length ≤ 9 ∧ (∀ c ∈ ds, c.isDigit = true)) ∧
      (∀ c ∈ (normField norm_doi os).data, c.isWhitespace = false) ∧
      (∀ c ∈ (normField norm_doi os).data, ¬(65 ≤ c.toNat ∧ c.toNat ≤ 90)) ∧
      (∀ c, (normField norm_doi os).data.getLast? = some c →
        rstripChars.contains c = false)) := by
  cases os with
  | none => exact Or.inl rfl
  | some s =>
    rcases normDoiL_structure s.data with hempty |
      ⟨ds, sfx, eshape, hds, h4, h9, hnws, hall, hlow, hlast⟩
    · left
      show norm_doi s = ""
      unfold norm_doi
      rw [hempty]
    · right
      have ef : normField norm_doi (some s) = norm_doi s := rfl
      rw [ef, data_norm_doi]
      refine ⟨⟨ds, sfx, eshape, h4, h9, hds⟩, hall, ?_, hlast⟩
      intro c hc
      obtain ⟨c0, rfl⟩ := hlow c hc
      exact toLower_not_upper c0

/-- Helper: whitespace characters are not word characters. -/
theorem ws_not_word {c : Char} (h : c.isWhitespace = true) : isWordChar c = false := by
  simp only [Char.isWhitespace, Bool.or_eq_true, decide_eq_true_eq] at h
  rcases h with ((h' | h') | h') | h' <;> subst h' <;> decide

/-- Helper: word characters are not whitespace. -/
theorem word_not_ws {c : Char} (h : isWordChar c = true) : c.isWhitespace = false := by
  cases hw : c.isWhitespace
  · rfl
  · rw [ws_not_word hw] at h; cases h

/-- Helper: `punctToSpace` preserves word-character status. -/
theorem isWordChar_punctToSpace (c : Char) : isWordChar (punctToSpace c) = isWordChar c := by
  unfold punctToSpace
  cases hx : isWordChar c
  · cases hw : c.isWhitespace
    · rw [if_neg (by decide)]
      decide
    · rw [if_pos (by decide)]
      exact hx
  · rw [if_pos (by simp)]
    exact hx

/-- Helper: every character of a `punctToSpace` image is a word character
or whitespace. -/
theorem punctToSpace_word_or_ws (c : Char) :
    isWordChar (punctToSpace c) = true ∨ (punctToSpace c).isWhitespace = true := by
  unfold punctToSpace
  by_cases h : (isWordChar c || c.isWhitespace) = true
  · rw [if_pos h]
    rcases Bool.or_eq_true_iff.mp h with h' | h'
    · exact Or.inl h'
    · exact Or.inr h'
  · rw [if_neg h]
    exact Or.inr (by decide)

/-- Helper: `wordsAcc` with a nonempty current run prepends that run to
the words of the rest. -/
theorem wordsAcc_spec : ∀ (l cur : List Char), cur ≠ [] →
    wordsAcc cur l = (cur.reverse ++ l.takeWhile isWordChar) :: wordsOf (l.dropWhile isWordChar)
  | [], cur, h => by
    have he : cur.isEmpty = false := by
      cases cur
      · exact absurd rfl h
      · rfl
    simp [wordsAcc, he, wordsOf]
  | c :: cs, cur, h => by
    by_cases hc : isWordChar c
    · rw [wordsAcc, if_pos hc]
      rw [wordsAcc_spec cs (c :: cur) (by simp)]
      rw [List.takeWhile_cons_of_pos hc, List.dropWhile_cons_of_pos hc]
      simp
    · have he : cur.isEmpty = false := by
        cases cur
        · exact absurd rfl h
        · rfl
      rw [wordsAcc, if_neg hc, if_neg (by simp [he])]
      rw [List.takeWhile_cons_of_neg hc, List.dropWhile_cons_of_neg hc]
      rw [List.append_nil]
      congr 1
      show wordsAcc [] cs = wordsOf (c :: cs)
      unfold wordsOf
      rw [wordsAcc, if_neg hc]
      rfl

/-- Helper: `wordsOf` at a word character opens a run. -/
theorem wordsOf_cons_word {c : Char} {cs : List Char} (h : isWordChar c = true) :
    wordsOf (c :: cs) = (c :: cs.takeWhile isWordChar) :: wordsOf (cs.dropWhile isWordChar) := by
  unfold wordsOf
  rw [wordsAcc, if_pos h]
  rw [wordsAcc_spec cs [c] (by simp)]
  simp [wordsOf]

/-- Helper: `wordsOf` skips a non-word character. -/
theorem wordsOf_cons_not_word {c : Char} {cs : List Char} (h : isWordChar c = false) :
    wordsOf (c :: cs) = wordsOf cs := by
  unfold wordsOf
  rw [wordsAcc, if_neg (by simp [h])]
  rfl

/-- Helper: the collapse continuation in whitespace state equals the
fresh-state collapse of the input without its leading whitespace. -/
theorem collapse_true_eq : ∀ cs : List Char,
    collapseGo true cs = collapseGo false (cs.dropWhile Char.isWhitespace)
  | [] => rfl
  | c :: cs => by
    by_cases hc : c.isWhitespace
    · rw [collapseGo, if_pos hc, if_pos rfl, collapse_true_eq cs, List.dropWhile_cons_of_pos hc]
    · rw [collapseGo, if_neg hc, List.dropWhile_cons_of_neg hc, collapseGo, if_neg hc]

/-- Helper: leading whitespace does not change the word runs. -/
theorem wordsOf_dropWhile_ws : ∀ cs : List Char,
    wordsOf (cs.dropWhile Char.isWhitespace) = wordsOf cs
  | [] => rfl
  | c :: cs => by
    by_cases hc : c.isWhitespace
    · rw [List.dropWhile_cons_of_pos hc, wordsOf_dropWhile_ws cs,
        wordsOf_cons_not_word (ws_not_word hc)]
    · rw [List.dropWhile_cons_of_neg hc]

/-- Helper: joining after extending the first word by a character. -/
theorem joinWords_cons_cons (c : Char) (w : List Char) (rest : List (List Char)) :
    joinWords ((c :: w) :: rest) = c :: joinWords (w :: rest) := by
  cases rest <;> rfl

/-- Helper: joining a word onto a nonempty rest inserts one space. -/
theorem joinWords_cons_of_ne (w : List Char) {rest : List (List Char)} (h : rest ≠ []) :
    joinWords (w :: rest) = w ++ ' ' :: joinWords rest := by
  cases rest with
  | nil => exact absurd rfl h
  | cons r rs => rfl

/-- Helper: the collapse of a string of word and whitespace characters is
its joined word runs padded by at most one space on each side: the left
pad appears exactly when the input starts with whitespace, and a right
pad can appear only when there is at least one word run. -/
theorem collapse_char : ∀ (n : Nat) (l : List Char), l.length ≤ n →
    (∀ c ∈ l, isWordChar c = true ∨ c.isWhitespace = true) →
    ∃ lp rp, collapseGo false l = lp ++ joinWords (wordsOf l) ++ rp ∧
      (lp = [] ∨ lp = [' ']) ∧ (rp = [] ∨ rp = [' ']) ∧
      (lp = [' '] ↔ ∃ c, l.head? = some c ∧ c.isWhitespace = true) ∧
      (rp = [' '] → wordsOf l ≠ []) := by
  intro n
  induction n with
  | zero =>
    intro l hlen _
    have hl : l = [] := List.eq_nil_of_length_eq_zero (Nat.le_zero.mp hlen)
    subst hl
    exact ⟨[], [], rfl, Or.inl rfl, Or.inl rfl, by simp, by simp⟩
  | succ n ih =>
    intro l hlen hmem
    cases l with
    | nil => exact ⟨[], [], rfl, Or.inl rfl, Or.inl rfl, by simp, by simp⟩
    | cons c cs =>
      have hlcs : cs.length ≤ n := by
        simp only [List.length_cons] at hlen
        omega
      by_cases hc : c.isWhitespace = true
      · -- whitespace head: emit one space and continue past leading whitespace
        have hmlen : (cs.dropWhile Char.isWhitespace).length ≤ n :=
          le_trans (List.dropWhile_sublist _).length_le hlcs
        have hmmem : ∀ x ∈ cs.dropWhile Char.isWhitespace,
            isWordChar x = true ∨ x.isWhitespace = true :=
          fun x hx => hmem x (List.mem_cons_of_mem _ ((List.dropWhile_sublist _).subset hx))
        obtain ⟨lp', rp', e', hlp', hrp', hiff', himp'⟩ := ih _ hmlen hmmem
        have hlp0 : lp' = [] := by
          rcases hlp' with h0 | h0
          · exact h0
          · exfalso
            obtain ⟨d, hd1, hd2⟩ := hiff'.mp h0
            have := List.head?_dropWhile_not Char.isWhitespace cs
            rw [hd1] at this
            rw [this] at hd2
            cases hd2
        have ecoll : collapseGo false (c :: cs) =
            ' ' :: collapseGo false (cs.dropWhile Char.isWhitespace) := by
          rw [collapseGo, if_pos hc, if_neg (by decide), collapse_true_eq]
        have ew : wordsOf (c :: cs) = wordsOf (cs.dropWhile Char.isWhitespace) := by
          rw [wordsOf_cons_not_word (ws_not_word hc), wordsOf_dropWhile_ws]
        refine ⟨[' '], rp', ?_, Or.inr rfl, hrp', ?_, ?_⟩
        · rw [ecoll, e', hlp0, ew]
          simp
        · constructor
          · intro _
            exact ⟨c, rfl, hc⟩
          · intro _
            rfl
        · intro hr
          rw [ew]
          exact himp' hr
      · -- word head
        have hcw : isWordChar c = true := by
          rcases hmem c (List.mem_cons_self _ _) with h | h
          · exact h
          · exact absurd h hc
        have ecoll : collapseGo false (c :: cs) = c :: collapseGo false cs := by
          rw [collapseGo, if_neg hc]
        obtain ⟨lp', rp', e', hlp', hrp', hiff', himp'⟩ := ih cs hlcs
          (fun x hx => hmem x (List.mem_cons_of_mem _ hx))
        cases cs with
        | nil =>
          refine ⟨[], [], ?_, Or.inl rfl, Or.inl rfl, ?_, ?_⟩
          · rw [ecoll, wordsOf_cons_word hcw]
            rfl
          · simp [word_not_ws hcw]
          · intro h0
            cases h0
        | cons d cs' =>
          by_cases hd : isWordChar d = true
          · -- the run continues: glue c onto the first word of cs
            have hlp0 : lp' = [] := by
              rcases hlp' with h0 | h0
              · exact h0
              · exfalso
                obtain ⟨x, hx1, hx2⟩ := hiff'.mp h0
                simp only [List.head?_cons, Option.some.injEq] at hx1
                subst hx1
                rw [word_not_ws hd] at hx2
                cases hx2
            have ew1 : wordsOf (c :: d :: cs') =
                (c :: d :: cs'.takeWhile isWordChar) :: wordsOf (cs'.dropWhile isWordChar) := by
              rw [wordsOf_cons_word hcw, List.takeWhile_cons_of_pos hd,
                List.dropWhile_cons_of_pos hd]
            have ew2 : wordsOf (d :: cs') =
                (d :: cs'.takeWhile isWordChar) :: wordsOf (cs'.dropWhile isWordChar) :=
              wordsOf_cons_word hd
            have ejoin : joinWords (wordsOf (c :: d :: cs')) =
                c :: joinWords (wordsOf (d :: cs')) := by
              rw [ew1, ew2, joinWords_cons_cons]
            refine ⟨[], rp', ?_, Or.inl rfl, hrp', ?_, ?_⟩
            · rw [ecoll, e', hlp0, ejoin]
              simp
            · constructor
              · intro h0
                cases h0
              · rintro ⟨x, hx1, hx2⟩
                simp only [List.head?_cons, Option.some.injEq] at hx1
                subst hx1
                rw [word_not_ws hcw] at hx2
                cases hx2
            · intro _
              rw [ew1]
              simp
          · -- the next character is whitespace: the run [.. c] closes here
            have hdw : d.isWhitespace = true := by
              rcases hmem d (List.mem_cons_of_mem _ (List.mem_cons_self _ _)) with h | h
              · exact absurd h hd
              · exact h
            have ew1 : wordsOf (c :: d :: cs') = [c] :: wordsOf (d :: cs') := by
              rw [wordsOf_cons_word hcw,
                List.takeWhile_cons_of_neg (by simp [hd]),
                List.dropWhile_cons_of_neg (by simp [hd])]
            by_cases hW : wordsOf (d :: cs') = []
            · have hrp0 : rp' = [] := by
                rcases hrp' with h0 | h0
                · exact h0
                · exact absurd hW (himp' h0)
              refine ⟨[], lp', ?_, Or.inl rfl, hlp', ?_, ?_⟩
              · rw [ecoll, e', hrp0, ew1, hW]
                have j1 : joinWords ([] : List (List Char)) = [] := rfl
                have j2 : joinWords [[c]] = [c] := rfl
                rw [j1, j2]
                simp
              · constructor
                · intro h0
                  cases h0
                · rintro ⟨x, hx1, hx2⟩
                  simp only [List.head?_cons, Option.some.injEq] at hx1
                  subst hx1
                  rw [word_not_ws hcw] at hx2
                  cases hx2
              · intro _
                rw [ew1]
                simp
            · have hlp1 : lp' = [' '] := hiff'.mpr ⟨d, rfl, hdw⟩
              refine ⟨[], rp', ?_, Or.inl rfl, hrp', ?_, ?_⟩
              · rw [ecoll, e', hlp1, ew1, joinWords_cons_of_ne _ hW]
                simp
              · constructor
                · intro h0
                  cases h0
                · rintro ⟨x, hx1, hx2⟩
                  simp only [List.head?_cons, Option.some.injEq] at hx1
                  subst hx1
                  rw [word_not_ws hcw] at hx2
                  cases hx2
              · intro _
                rw [ew1]
                simp

/-- Helper: every word run is nonempty and made of word characters. -/
theorem wordsOf_words : ∀ (n : Nat) (l : List Char), l.length ≤ n →
    ∀ w ∈ wordsOf l, w ≠ [] ∧ ∀ c ∈ w, isWordChar c = true := by
  intro n
  induction n with
  | zero =>
    intro l hlen w hw
    have hl : l = [] := List.eq_nil_of_length_eq_zero (Nat.le_zero.mp hlen)
    subst hl
    cases hw
  | succ n ih =>
    intro l hlen w hw
    cases l with
    | nil => cases hw
    | cons c cs =>
      have hlcs : cs.length ≤ n := by
        simp only [List.length_cons] at hlen
        omega
      by_cases hc : isWordChar c = true
      · rw [wordsOf_cons_word hc] at hw
        rcases List.mem_cons.mp hw with rfl | hw
        · refine ⟨by simp, ?_⟩
          intro x hx
          rcases List.mem_cons.mp hx with rfl | hx
          · exact hc
          · exact List.mem_takeWhile_imp hx
        · exact ih _ (le_trans (List.dropWhile_sublist _).length_le hlcs) w hw
      · have hcf : isWordChar c = false := by
          cases hx : isWordChar c
          · rfl
          · exact absurd hx hc
        rw [wordsOf_cons_not_word hcf] at hw
        exact ih cs hlcs w hw

/-- Helper: every character of a word run is a character of the input. -/
theorem wordsOf_chars_sub : ∀ (n : Nat) (l : List Char), l.length ≤ n →
    ∀ w ∈ wordsOf l, ∀ c ∈ w, c ∈ l := by
  intro n
  induction n with
  | zero =>
    intro l hlen w hw
    have hl : l = [] := List.eq_nil_of_length_eq_zero (Nat.le_zero.mp hlen)
    subst hl
    cases hw
  | succ n ih =>
    intro l hlen w hw c hc
    cases l with
    | nil => cases hw
    | cons x cs =>
      have hlcs : cs.length ≤ n := by
        simp only [List.length_cons] at hlen
        omega
      by_cases hx : isWordChar x = true
      · rw [wordsOf_cons_word hx] at hw
        rcases List.mem_cons.mp hw with rfl | hw
        · rcases List.mem_cons.mp hc with rfl | hc
          · exact List.mem_cons_self _ _
          · exact List.mem_cons_of_mem _ ((List.takeWhile_sublist _).subset hc)
        · have := ih _ (le_trans (List.dropWhile_sublist _).length_le hlcs) w hw c hc
          exact List.mem_cons_of_mem _ ((List.dropWhile_sublist _).subset this)
      · have hxf : isWordChar x = false := by
          cases he : isWordChar x
          · rfl
          · exact absurd he hx
        rw [wordsOf_cons_not_word hxf] at hw
        exact List.mem_cons_of_mem _ (ih cs hlcs w hw c hc)

/-- Helper: the join of a run list starting with a nonempty run is
nonempty. -/
theorem joinWords_ne_nil {w : List Char} {ws : List (List Char)} (h : w ≠ []) :
    joinWords (w :: ws) ≠ [] := by
  cases w with
  | nil => exact absurd rfl h
  | cons a w' =>
    rw [joinWords_cons_cons]
    exact List.cons_ne_nil _ _

/-- Helper: the first character of joined word runs is a word
character. -/
theorem joinWords_head_word : ∀ (W : List (List Char)),
    (∀ w ∈ W, w ≠ [] ∧ ∀ c ∈ w, isWordChar c = true) →
    ∀ c, (joinWords W).head? = some c → isWordChar c = true
  | [], _, c, h => by cases h
  | w :: ws, hW, c, h => by
    obtain ⟨hne, hword⟩ := hW w (List.mem_cons_self _ _)
    cases w with
    | nil => exact absurd rfl hne
    | cons a w' =>
      rw [joinWords_cons_cons] at h
      simp only [List.head?_cons, Option.some.injEq] at h
      subst h
      exact hword _ (List.mem_cons_self _ _)

/-- Helper: the last character of joined word runs is a word
character. -/
theorem joinWords_getLast_word : ∀ (W : List (List Char)),
    (∀ w ∈ W, w ≠ [] ∧ ∀ c ∈ w, isWordChar c = true) →
    ∀ c, (joinWords W).getLast? = some c → isWordChar c = true
  | [], _, c, h => by cases h
  | [w], hW, c, h => by
    obtain ⟨hne, hword⟩ := hW w (List.mem_cons_self _ _)
    have hj : joinWords [w] = w := by
      cases w with
      | nil => exact absurd rfl hne
      | cons a w' => rfl
    rw [hj] at h
    exact hword c (mem_of_getLast?_eq h)
  | w :: x :: ws, hW, c, h => by
    rw [joinWords_cons_of_ne _ (List.cons_ne_nil _ _)] at h
    rw [List.getLast?_append] at h
    have hxne : x ≠ [] := (hW x (List.mem_cons_of_mem _ (List.mem_cons_self _ _))).1
    have hJne : joinWords (x :: ws) ≠ [] := joinWords_ne_nil hxne
    have hlast : (' ' :: joinWords (x :: ws)).getLast? = (joinWords (x :: ws)).getLast? := by
      rw [List.getLast?_cons]
      cases hJ : (joinWords (x :: ws)).getLast? with
      | none =>
        exfalso
        rw [List.getLast?_eq_none_iff] at hJ
        exact hJne hJ
      | some y => rfl
    rw [hlast] at h
    cases hJ : (joinWords (x :: ws)).getLast? with
    | none =>
      exfalso
      rw [List.getLast?_eq_none_iff] at hJ
      exact hJne hJ
    | some y =>
      rw [hJ] at h
      simp only [Option.or_some, Option.some.injEq] at h
      subst h
      exact joinWords_getLast_word (x :: ws)
        (fun v hv => hW v (List.mem_cons_of_mem _ hv)) _ hJ

/-- Helper: stripping whitespace removes exactly the one-space pads
around a whitespace-free-ended middle. -/
theorem stripWs_pad {mid lp rp : List Char}
    (hlp : lp = [] ∨ lp = [' ']) (hrp : rp = [] ∨ rp = [' '])
    (hh : ∀ c, mid.head? = some c → c.isWhitespace = false)
    (hl : ∀ c, mid.getLast? = some c → c.isWhitespace = false)
    (hnil : mid = [] → rp = []) :
    stripWs (lp ++ mid ++ rp) = mid := by
  cases mid with
  | nil =>
    rw [hnil rfl]
    rcases hlp with rfl | rfl
    · rfl
    · rfl
  | cons m ms =>
    have hm : m.isWhitespace = false := hh m rfl
    unfold stripWs
    have e1 : (lp ++ (m :: ms) ++ rp).dropWhile Char.isWhitespace = (m :: ms) ++ rp := by
      rcases hlp with rfl | rfl
      · simp only [List.nil_append]
        show List.dropWhile Char.isWhitespace (m :: (ms ++ rp)) = m :: (ms ++ rp)
        exact List.dropWhile_cons_of_neg (by simp [hm])
      · show List.dropWhile Char.isWhitespace (' ' :: ((m :: ms) ++ rp)) = (m :: ms) ++ rp
        rw [List.dropWhile_cons_of_pos (by decide)]
        show List.dropWhile Char.isWhitespace (m :: (ms ++ rp)) = m :: (ms ++ rp)
        exact List.dropWhile_cons_of_neg (by simp [hm])
    rw [e1]
    rcases hrp with rfl | rfl
    · rw [List.append_nil]
      rw [dropWhile_eq_self_of_head (fun c hc => hl c (by rwa [List.head?_reverse] at hc))]
      exact (m :: ms).reverse_reverse
    · rw [List.reverse_append]
      show ((([' '] : List Char).reverse ++ (m :: ms).reverse).dropWhile
        Char.isWhitespace).reverse = m :: ms
      rw [show ([' '] : List Char).reverse = [' '] from rfl, List.singleton_append]
      rw [List.dropWhile_cons_of_pos (by decide)]
      rw [dropWhile_eq_self_of_head (fun c hc => hl c (by rwa [List.head?_reverse] at hc))]
      exact (m :: ms).reverse_reverse

/-- Helper: `punctToSpace` fixes a list of word characters. -/
theorem map_punctToSpace_of_word {m : List Char} (h : ∀ c ∈ m, isWordChar c = true) :
    m.map punctToSpace = m := by
  induction m with
  | nil => rfl
  | cons x xs ih =>
    have hx : punctToSpace x = x := by
      unfold punctToSpace
      rw [if_pos (by simp [h x (List.mem_cons_self _ _)])]
    rw [List.map_cons, hx, ih (fun c hc => h c (List.mem_cons_of_mem _ hc))]

/-- Helper: replacing punctuation by spaces does not change the word
runs. -/
theorem wordsOf_map_punctToSpace : ∀ (n : Nat) (l : List Char), l.length ≤ n →
    wordsOf (l.map punctToSpace) = wordsOf l := by
  intro n
  induction n with
  | zero =>
    intro l hlen
    have hl : l = [] := List.eq_nil_of_length_eq_zero (Nat.le_zero.mp hlen)
    subst hl
    rfl
  | succ n ih =>
    intro l hlen
    cases l with
    | nil => rfl
    | cons c cs =>
      have hlcs : cs.length ≤ n := by
        simp only [List.length_cons] at hlen
        omega
      rw [List.map_cons]
      by_cases hc : isWordChar c = true
      · have hfix : punctToSpace c = c := by
          unfold punctToSpace
          rw [if_pos (by simp [hc])]
        rw [hfix, wordsOf_cons_word hc, wordsOf_cons_word hc]
        rw [List.takeWhile_map, List.dropWhile_map]
        have hcongr : (fun x => isWordChar (punctToSpace x)) = isWordChar := by
          funext x
          exact isWordChar_punctToSpace x
        have ht : List.takeWhile (isWordChar ∘ punctToSpace) cs =
            List.takeWhile isWordChar cs := by
          show List.takeWhile (fun x => isWordChar (punctToSpace x)) cs = _
          rw [hcongr]
        have hd : List.dropWhile (isWordChar ∘ punctToSpace) cs =
            List.dropWhile isWordChar cs := by
          show List.dropWhile (fun x => isWordChar (punctToSpace x)) cs = _
          rw [hcongr]
        rw [ht, hd]
        rw [map_punctToSpace_of_word (fun x hx => List.mem_takeWhile_imp hx)]
        rw [ih _ (le_trans (List.dropWhile_sublist _).length_le hlcs)]
      · have hcf : isWordChar c = false := by
          cases he : isWordChar c
          · rfl
          · exact absurd he hc
        have hcf2 : isWordChar (punctToSpace c) = false := by
          rw [isWordChar_punctToSpace]
          exact hcf
        rw [wordsOf_cons_not_word hcf2, wordsOf_cons_not_word hcf]
        exact ih cs hlcs

/-- Helper: each character of joined runs is a space or a run
character. -/
theorem mem_joinWords : ∀ (W : List (List Char)) (c : Char), c ∈ joinWords W →
    c = ' ' ∨ ∃ w ∈ W, c ∈ w
  | [], c, h => absurd h (List.not_mem_nil c)
  | [w], c, h => by
    have e : joinWords [w] = w := rfl
    rw [e] at h
    exact Or.inr ⟨w, List.mem_cons_self _ _, h⟩
  | w :: x :: ws, c, h => by
    rw [joinWords_cons_of_ne _ (List.cons_ne_nil _ _)] at h
    rcases List.mem_append.mp h with h | h
    · exact Or.inr ⟨w, List.mem_cons_self _ _, h⟩
    rcases List.mem_cons.mp h with rfl | h
    · exact Or.inl rfl
    rcases mem_joinWords (x :: ws) c h with h | ⟨v, hv, hcv⟩
    · exact Or.inl h
    · exact Or.inr ⟨v, List.mem_cons_of_mem _ hv, hcv⟩

/-- Helper: `Char.toLower` fixes a list of fixed points. -/
theorem map_toLower_fix {l : List Char} (h : ∀ c ∈ l, Char.toLower c = c) :
    l.map Char.toLower = l := by
  induction l with
  | nil => rfl
  | cons x xs ih =>
    rw [List.map_cons, h x (List.mem_cons_self _ _),
      ih (fun c hc => h c (List.mem_cons_of_mem _ hc))]

/-- Helper: segmenting a word followed by a space-separated rest. -/
theorem wordsOf_word_append (w : List Char) (hne : w ≠ [])
    (hword : ∀ c ∈ w, isWordChar c = true) (rest : List Char) :
    wordsOf (w ++ ' ' :: rest) = w :: wordsOf rest := by
  cases w with
  | nil => exact absurd rfl hne
  | cons a w' =>
    have hall : ∀ c ∈ w', isWordChar c = true :=
      fun c hc => hword c (List.mem_cons_of_mem _ hc)
    show wordsOf (a :: (w' ++ ' ' :: rest)) = (a :: w') :: wordsOf rest
    rw [wordsOf_cons_word (hword a (List.mem_cons_self _ _))]
    rw [List.takeWhile_append_of_pos hall, List.takeWhile_cons_of_neg (by decide)]
    rw [List.dropWhile_append_of_pos hall, List.dropWhile_cons_of_neg (by decide)]
    rw [wordsOf_cons_not_word (by decide)]
    simp

/-- Helper: segmentation is a retraction of joining for lists of
nonempty all-word runs. -/
theorem wordsOf_joinWords : ∀ (W : List (List Char)),
    (∀ w ∈ W, w ≠ [] ∧ ∀ c ∈ w, isWordChar c = true) → wordsOf (joinWords W) = W
  | [], _ => rfl
  | [w], hW => by
    obtain ⟨hne, hword⟩ := hW w (List.mem_cons_self _ _)
    have e : joinWords [w] = w := rfl
    rw [e]
    cases w with
    | nil => exact absurd rfl hne
    | cons a w' =>
      have hall : ∀ c ∈ w', isWordChar c = true :=
        fun c hc => hword c (List.mem_cons_of_mem _ hc)
      rw [wordsOf_cons_word (hword a (List.mem_cons_self _ _))]
      have ht : w'.takeWhile isWordChar = w' := by
        have e2 : (w' ++ ([] : List Char)).takeWhile isWordChar =
            w' ++ ([] : List Char).takeWhile isWordChar :=
          List.takeWhile_append_of_pos hall
        simpa using e2
      have hd : w'.dropWhile isWordChar = [] := by
        have e2 : (w' ++ ([] : List Char)).dropWhile isWordChar =
            ([] : List Char).dropWhile isWordChar :=
          List.dropWhile_append_of_pos hall
        simpa using e2
      rw [ht, hd]
      rfl
  | w :: x :: ws, hW => by
    obtain ⟨hne, hword⟩ := hW w (List.mem_cons_self _ _)
    rw [joinWords_cons_of_ne _ (List.cons_ne_nil _ _)]
    rw [wordsOf_word_append w hne hword]
    rw [wordsOf_joinWords (x :: ws) (fun v hv => hW v (List.mem_cons_of_mem _ hv))]

/-- Helper: `normTitleL` is exactly the joined case-folded word runs of
its input: the strip/fold/punctuation-to-space/collapse/strip pipeline
keeps the words and separates them by single spaces. -/
theorem normTitleL_eq (l : List Char) :
    normTitleL l = joinWords (wordsOf ((stripWs l).map Char.toLower)) := by
  unfold normTitleL
  have hwords : wordsOf (((stripWs l).map Char.toLower).map punctToSpace) =
      wordsOf ((stripWs l).map Char.toLower) :=
    wordsOf_map_punctToSpace _ _ le_rfl
  have hmem2 : ∀ c ∈ ((stripWs l).map Char.toLower).map punctToSpace,
      isWordChar c = true ∨ c.isWhitespace = true := by
    intro c hc
    obtain ⟨c0, _, rfl⟩ := List.mem_map.mp hc
    exact punctToSpace_word_or_ws c0
  obtain ⟨lp, rp, e, hlp, hrp, hiff, himp⟩ :=
    collapse_char (((stripWs l).map Char.toLower).map punctToSpace).length _ le_rfl hmem2
  rw [e, hwords]
  have hWspec : ∀ w ∈ wordsOf ((stripWs l).map Char.toLower),
      w ≠ [] ∧ ∀ c ∈ w, isWordChar c = true :=
    fun w hw => wordsOf_words _ _ le_rfl w hw
  apply stripWs_pad hlp hrp
  · intro c hc
    exact word_not_ws (joinWords_head_word _ hWspec c hc)
  · intro c hc
    exact word_not_ws (joinWords_getLast_word _ hWspec c hc)
  · intro hj
    rcases hrp with h | h
    · exact h
    · exfalso
      have hne := himp h
      rw [hwords] at hne
      cases hw2 : wordsOf ((stripWs l).map Char.toLower) with
      | nil => exact hne hw2
      | cons w ws =>
        have hwne : w ≠ [] := (hWspec w (by rw [hw2]; exact List.mem_cons_self w ws)).1
        rw [hw2] at hj
        exact joinWords_ne_nil hwne hj

/-- Helper: the characters of `norm_title` output are `normTitleL` of the
input characters. -/
theorem data_norm_title (s : String) : (norm_title s).data = normTitleL s.data := by
  unfold norm_title
  exact data_mk _

/-- Helper: `norm_title` packs the joined, case-folded word runs. -/
theorem norm_title_eq_joinWords (s : String) :
    norm_title s = String.mk (joinWords (titleWords s)) := by
  unfold norm_title titleWords
  rw [normTitleL_eq]

/-- Helper: `norm_title` is idempotent. -/
theorem norm_title_idem (x : String) : norm_title (norm_title x) = norm_title x := by
  have hW : ∀ w ∈ titleWords x, w ≠ [] ∧ ∀ c ∈ w, isWordChar c = true :=
    fun w hw => wordsOf_words _ _ le_rfl w hw
  have hJ : (norm_title x).data = joinWords (titleWords x) := by
    rw [data_norm_title, normTitleL_eq]
    rfl
  have hstrip : stripWs (norm_title x).data = (norm_title x).data := by
    rw [hJ]
    unfold stripWs
    exact trim_eq_self
      (fun c hc => word_not_ws (joinWords_head_word _ hW c hc))
      (fun c hc => word_not_ws (joinWords_getLast_word _ hW c hc))
  have hmap : ((norm_title x).data).map Char.toLower = (norm_title x).data := by
    apply map_toLower_fix
    intro c hc
    rw [hJ] at hc
    rcases mem_joinWords _ c hc with rfl | ⟨w, hw, hcw⟩
    · decide
    · have hcl1 : c ∈ (stripWs x.data).map Char.toLower :=
        wordsOf_chars_sub _ _ le_rfl w hw c hcw
      obtain ⟨c0, _, rfl⟩ := List.mem_map.mp hcl1
      exact toLower_toLower c0
  have htw : titleWords (norm_title x) = titleWords x := by
    have e : titleWords (norm_title x) =
        wordsOf ((stripWs (norm_title x).data).map Char.toLower) := rfl
    rw [e, hstrip, hmap, hJ]
    exact wordsOf_joinWords _ hW
  rw [norm_title_eq_joinWords (norm_title x), htw, ← norm_title_eq_joinWords x]

/-- Helper: `norm_title` depends only on the case-folded word runs. -/
theorem norm_title_inv (x y : String) (h : titleWords x = titleWords y) :
    norm_title x = norm_title y := by
  rw [norm_title_eq_joinWords x, norm_title_eq_joinWords y, h]

/-- C7: `norm_title` is idempotent; two titles with the same case-folded
word runs — i.e. differing only in letter case, punctuation, or
whitespace style — normalize to the same key; and in particular the
spec's example pair normalizes identically. -/
theorem norm_title_properties :
    (∀ x : String, norm_title (norm_title x) = norm_title x) ∧
    (∀ x y : String, titleWords x = titleWords y → norm_title x = norm_title y) ∧
    norm_title "Deep Learning, A Survey!" = norm_title "deep   learning a survey" :=
  ⟨norm_title_idem, norm_title_inv, by decide⟩

/-- Witness for C7 at a concrete pair of titles differing in case,
punctuation and whitespace. -/
theorem norm_title_properties_witness :
    titleWords "Deep-Learning2_X!" = titleWords "  DEEP   learning2_x? " ∧
    norm_title "Deep-Learning2_X!" = norm_title "  DEEP   learning2_x? " :=
  ⟨by decide, norm_title_properties.2.1 _ _ (by decide)⟩

instance (key : StandardRecord → String) : IsTotal StandardRecord (pairLe key) where
  total a b := by
    rcases lt_trichotomy (key a) (key b) with h | h | h
    · exact Or.inl (Or.inl h)
    · rcases Nat.le_total a.source_rank b.source_rank with hr | hr
      · exact Or.inl (Or.inr ⟨h, hr⟩)
      · exact Or.inr (Or.inr ⟨h.symm, hr⟩)
    · exact Or.inr (Or.inl h)

instance (key : StandardRecord → String) : IsTrans StandardRecord (pairLe key) where
  trans a b c hab hbc := by
    rcases hab with h1 | ⟨e1, r1⟩
    · rcases hbc with h2 | ⟨e2, r2⟩
      · exact Or.inl (lt_trans h1 h2)
      · exact Or.inl (by rw [← e2]; exact h1)
    · rcases hbc with h2 | ⟨e2, r2⟩
      · exact Or.inl (by rw [e1]; exact h2)
      · exact Or.inr ⟨e1.trans e2, le_trans r1 r2⟩

instance : IsTotal StandardRecord rankLe where
  total _ _ := Nat.le_total _ _

instance : IsTrans StandardRecord rankLe where
  trans _ _ _ := Nat.le_trans

/-- Helper: dropping duplicates yields a sublist. -/
theorem dropDupGo_sublist (key : StandardRecord → String) :
    ∀ (seen : List String) (l : List StandardRecord), List.Sublist (dropDupGo key seen l) l
  | _, [] => List.Sublist.refl []
  | seen, r :: rs => by
    unfold dropDupGo
    split
    · exact (dropDupGo_sublist key seen rs).cons r
    · exact (dropDupGo_sublist key (key r :: seen) rs).cons₂ r

/-- Helper: a surviving record's key was not among the already-seen
keys. -/
theorem mem_dropDupGo_not_seen (key : StandardRecord → String) :
    ∀ (seen : List String) (l : List StandardRecord) (r : StandardRecord),
      r ∈ dropDupGo key seen l → seen.contains (key r) = false
  | seen, [], r, h => absurd h (List.not_mem_nil r)
  | seen, x :: xs, r, h => by
    unfold dropDupGo at h
    split at h
    · exact mem_dropDupGo_not_seen key seen xs r h
    · rcases List.mem_cons.mp h with rfl | h
      · rename_i hx
        cases hc : seen.contains (key r)
        · rfl
        · exact absurd hc hx
      · have h2 := mem_dropDupGo_not_seen key (key x :: seen) xs r h
        rw [List.contains_cons, Bool.or_eq_false_iff] at h2
        exact h2.2

/-- Helper: the surviving records have pairwise distinct keys. -/
theorem pairwise_ne_dropDupGo (key : StandardRecord → String) :
    ∀ (seen : List String) (l : List StandardRecord),
      List.Pairwise (fun a b => key a ≠ key b) (dropDupGo key seen l)
  | _, [] => List.Pairwise.nil
  | seen, x :: xs => by
    unfold dropDupGo
    split
    · exact pairwise_ne_dropDupGo key seen xs
    · refine List.Pairwise.cons ?_ (pairwise_ne_dropDupGo key (key x :: seen) xs)
      intro y hy he
      have h2 := mem_dropDupGo_not_seen key (key x :: seen) xs y hy
      rw [List.contains_cons, Bool.or_eq_false_iff] at h2
      have := h2.1
      rw [← he] at this
      simp at this

/-- Helper: dropping duplicates does not change the first record found
for a key not yet seen. -/
theorem find?_dropDupGo (key : StandardRecord → String) (k : String) :
    ∀ (seen : List String) (l : List StandardRecord), seen.contains k = false →
      (dropDupGo key seen l).find? (keyIs key k) = l.find? (keyIs key k)
  | _, [], _ => rfl
  | seen, x :: xs, h => by
    unfold dropDupGo
    split
    · rename_i hx
      have hb : (key x == k) = false := by
        cases hbe : (key x == k)
        · rfl
        · exfalso
          rw [eq_of_beq hbe] at hx
          rw [hx] at h
          cases h
      rw [find?_dropDupGo key k seen xs h]
      simp [List.find?_cons, keyIs, hb]
    · cases hb : (key x == k) with
      | false =>
        simp only [List.find?_cons, keyIs, hb]
        exact find?_dropDupGo key k (key x :: seen) xs (by
          rw [List.contains_cons, Bool.or_eq_false_iff]
          refine ⟨?_, h⟩
          cases hkb : (k == key x)
          · rfl
          · exfalso
            rw [eq_of_beq hkb] at hb
            simp at hb)
      | true => simp only [List.find?_cons, keyIs, hb]

/-- Helper: a search filtered by a weaker predicate finds the same
record. -/
theorem find?_filter_of_imp {p q : StandardRecord → Bool}
    (h : ∀ r, p r = true → q r = true) :
    ∀ l : List StandardRecord, (l.filter q).find? p = l.find? p
  | [] => rfl
  | x :: xs => by
    by_cases hq : q x
    · rw [List.filter_cons_of_pos hq]
      by_cases hp : p x
      · rw [List.find?_cons_of_pos _ hp, List.find?_cons_of_pos _ hp]
      · rw [List.find?_cons_of_neg _ hp, List.find?_cons_of_neg _ hp, find?_filter_of_imp h xs]
    · rw [List.filter_cons_of_neg hq]
      have hp : ¬ p x = true := fun hp => hq (h x hp)
      rw [List.find?_cons_of_neg _ hp, find?_filter_of_imp h xs]

/-- Helper: the first-of-minimal-rank record of a two-record group. -/
theorem firstMin_pair (a b : StandardRecord) :
    firstMin [a, b] = if a.source_rank ≤ b.source_rank then some a else some b := by
  simp [firstMin]

/-- Helper: the group membership test as a proposition. -/
theorem keyIs_eq_true {key : StandardRecord → String} {k : String} {r : StandardRecord} :
    keyIs key k r = true ↔ key r = k := by
  simp [keyIs]

/-- Helper: inserting a group member into a sorted list and filtering to
the group is inserting it by rank into the filtered group. -/
theorem filter_orderedInsert_key (key : StandardRecord → String) (k : String)
    (a : StandardRecord) (ha : key a = k) :
    ∀ (m : List StandardRecord), List.Sorted (pairLe key) m →
    (List.orderedInsert (pairLe key) a m).filter (keyIs key k) =
      List.orderedInsert rankLe a (m.filter (keyIs key k))
  | [], _ => by
    have hpa : keyIs key k a = true := keyIs_eq_true.mpr ha
    simp [List.orderedInsert, hpa]
  | x :: m', hs => by
    have hpa : keyIs key k a = true := keyIs_eq_true.mpr ha
    by_cases hax : pairLe key a x
    · rw [List.orderedInsert_of_le _ _ hax]
      by_cases hxk : key x = k
      · have hpx : keyIs key k x = true := keyIs_eq_true.mpr hxk
        have hr : rankLe a x := by
          rcases hax with hlt | ⟨e, hr⟩
          · rw [ha, hxk] at hlt
            exact absurd hlt (lt_irrefl _)
          · exact hr
        rw [List.filter_cons_of_pos hpa, List.filter_cons_of_pos hpx,
          List.orderedInsert_of_le _ _ hr]
      · have hklt : k < key x := by
          rcases hax with hlt | ⟨e, _⟩
          · rwa [ha] at hlt
          · rw [ha] at e
            exact absurd e.symm hxk
        have hnone : (x :: m').filter (keyIs key k) = [] := by
          rw [List.filter_eq_nil_iff]
          intro y hy hpy
          rcases List.mem_cons.mp hy with rfl | hy
          · exact hxk (keyIs_eq_true.mp hpy)
          · have hxy := List.rel_of_sorted_cons hs y hy
            have hlt2 : k < key y := by
              rcases hxy with hlt | ⟨e, _⟩
              · exact lt_trans hklt hlt
              · rwa [e] at hklt
            exact absurd (keyIs_eq_true.mp hpy) (ne_of_gt hlt2)
        rw [List.filter_cons_of_pos hpa, hnone]
        simp [List.orderedInsert]
    · have e1 : List.orderedInsert (pairLe key) a (x :: m') =
          x :: List.orderedInsert (pairLe key) a m' := by
        simp only [List.orderedInsert, if_neg hax]
      rw [e1]
      have hs' : List.Sorted (pairLe key) m' := hs.of_cons
      by_cases hxk : key x = k
      · have hpx : keyIs key k x = true := keyIs_eq_true.mpr hxk
        have hr : ¬ rankLe a x := fun hr => hax (Or.inr ⟨ha.trans hxk.symm, hr⟩)
        rw [List.filter_cons_of_pos hpx, List.filter_cons_of_pos hpx]
        have e2 : List.orderedInsert rankLe a (x :: m'.filter (keyIs key k)) =
            x :: List.orderedInsert rankLe a (m'.filter (keyIs key k)) := by
          simp only [List.orderedInsert, if_neg hr]
        rw [e2, filter_orderedInsert_key key k a ha m' hs']
      · have hpx : ¬ keyIs key k x = true := fun hc => hxk (keyIs_eq_true.mp hc)
        rw [List.filter_cons_of_neg hpx, List.filter_cons_of_neg hpx]
        exact filter_orderedInsert_key key k a ha m' hs'

/-- Helper: inserting a record of another group is invisible to the
filtered group. -/
theorem filter_orderedInsert_not_key (key : StandardRecord → String) (k : String)
    (a : StandardRecord) (ha : key a ≠ k) (m : List StandardRecord) :
    (List.orderedInsert (pairLe key) a m).filter (keyIs key k) = m.filter (keyIs key k) := by
  rw [List.orderedInsert_eq_take_drop]
  rw [List.filter_append]
  have hpa : ¬ keyIs key k a = true := fun hc => ha (keyIs_eq_true.mp hc)
  rw [List.filter_cons_of_neg hpa]
  rw [← List.filter_append, List.takeWhile_append_dropWhile]

/-- Helper: one key group of the stable lexicographic sort, in order, is
the stable by-rank sort of the group (this is where stability by
`(key, source_rank)` is used). -/
theorem filter_insertionSort_key (key : StandardRecord → String) (k : String) :
    ∀ l : List StandardRecord,
      (List.insertionSort (pairLe key) l).filter (keyIs key k) =
        List.insertionSort rankLe (l.filter (keyIs key k))
  | [] => rfl
  | a :: t => by
    simp only [List.insertionSort]
    by_cases hak : key a = k
    · rw [filter_orderedInsert_key key k a hak _ (List.sorted_insertionSort _ t)]
      rw [filter_insertionSort_key key k t]
      rw [List.filter_cons_of_pos (keyIs_eq_true.mpr hak)]
      simp only [List.insertionSort]
    · rw [filter_orderedInsert_not_key key k a hak]
      rw [filter_insertionSort_key key k t]
      rw [List.filter_cons_of_neg (fun hc => hak (keyIs_eq_true.mp hc))]

/-- Helper: the head of the stable by-rank sort is the earliest record
of minimal rank. -/
theorem head?_insertionSort_rank : ∀ g : List StandardRecord,
    (List.insertionSort rankLe g).head? = firstMin g
  | [] => rfl
  | a :: g' => by
    simp only [List.insertionSort]
    have h0 := head?_insertionSort_rank g'
    cases hs : List.insertionSort rankLe g' with
    | nil =>
      rw [hs] at h0
      have h1 : firstMin g' = none := by
        rw [← h0]
        rfl
      show (List.orderedInsert rankLe a []).head? = firstMin (a :: g')
      simp [List.orderedInsert, firstMin, h1]
    | cons x s' =>
      rw [hs] at h0
      have h1 : firstMin g' = some x := by
        rw [← h0]
        rfl
      by_cases hr : rankLe a x
      · rw [List.orderedInsert_of_le _ _ hr]
        simp only [List.head?_cons, firstMin, h1]
        have hr2 : a.source_rank ≤ x.source_rank := hr
        rw [if_pos hr2]
      · have e1 : List.orderedInsert rankLe a (x :: s') =
            x :: List.orderedInsert rankLe a s' := by
          simp only [List.orderedInsert, if_neg hr]
        rw [e1]
        simp only [List.head?_cons, firstMin, h1]
        have hr2 : ¬ a.source_rank ≤ x.source_rank := hr
        rw [if_neg hr2]

/-- Helper: the record that survives the DOI tier for a nonempty key `d`
is the first record of minimal source rank among the records of the
merged frame whose `doi_norm` is `d`. -/
theorem dedup_doi_find (merged : List StandardRecord) (d : String) (hd : d ≠ "") :
    (dedup_doi merged).find? (keyIs (fun r => r.doi_norm) d) =
      firstMin (merged.filter (keyIs (fun r => r.doi_norm) d)) := by
  unfold dedup_doi drop_duplicates
  rw [find?_dropDupGo _ d [] _ rfl]
  rw [find?_filter_of_imp (fun r h => ?himp)]
  case himp =>
    have he : r.doi_norm = d := keyIs_eq_true.mp h
    rw [he]
    simp [hd]
  rw [← List.filter_head?]
  unfold sort_values
  rw [filter_insertionSort_key]
  rw [head?_insertionSort_rank]

/-- Helper: the first-of-minimal-rank record is a record of the group. -/
theorem firstMin_mem : ∀ {g : List StandardRecord} {m : StandardRecord},
    firstMin g = some m → m ∈ g
  | [], _, h => by cases h
  | r :: rs, m, h => by
    unfold firstMin at h
    cases hf : firstMin rs with
    | none =>
      rw [hf] at h
      cases h
      exact List.mem_cons_self r rs
    | some x =>
      rw [hf] at h
      dsimp only at h
      by_cases hr : r.source_rank ≤ x.source_rank
      · rw [if_pos hr] at h
        cases h
        exact List.mem_cons_self r rs
      · rw [if_neg hr] at h
        cases h
        exact List.mem_cons_of_mem r (firstMin_mem hf)

/-- Helper: a record surviving the DOI tier is a record of the merged
frame and carries a nonempty key. -/
theorem mem_dedup_doi_sub {merged : List StandardRecord} {r : StandardRecord}
    (h : r ∈ dedup_doi merged) : r ∈ merged ∧ r.doi_norm ≠ "" := by
  unfold dedup_doi drop_duplicates at h
  have h1 := (dropDupGo_sublist (fun r => r.doi_norm) [] _).subset h
  rw [List.mem_filter] at h1
  refine ⟨?_, ?_⟩
  · exact ((List.perm_insertionSort (pairLe (fun r => r.doi_norm)) merged).subset) h1.1
  · have := h1.2
    simpa using this

/-- Helper: when the first record of minimal rank of a nonempty-key
group is `a`, then `a` survives the DOI tier and every other record of
the group does not. -/
theorem dedup_doi_survivor {merged : List StandardRecord} {d : String}
    {a b : StandardRecord} (hd : d ≠ "")
    (hfind : firstMin (merged.filter (keyIs (fun r => r.doi_norm) d)) = some a)
    (hbmem : b ∈ merged.filter (keyIs (fun r => r.doi_norm) d))
    (hne : b ≠ a) :
    a ∈ dedup_doi merged ∧ b ∉ dedup_doi merged := by
  have hfd : (dedup_doi merged).find? (keyIs (fun r => r.doi_norm) d) = some a := by
    rw [dedup_doi_find merged d hd, hfind]
  have hamem : a ∈ dedup_doi merged := List.mem_of_find?_eq_some hfd
  have hka : a.doi_norm = d := by
    have := (List.mem_filter.mp (firstMin_mem hfind)).2
    exact keyIs_eq_true.mp this
  have hkb : b.doi_norm = d := keyIs_eq_true.mp (List.mem_filter.mp hbmem).2
  refine ⟨hamem, fun hb => ?_⟩
  have hpw : List.Pairwise (fun x y => x.doi_norm ≠ y.doi_norm) (dedup_doi merged) := by
    unfold dedup_doi drop_duplicates
    exact pairwise_ne_dropDupGo (fun r => r.doi_norm) [] _
  have hsym : Symmetric (fun x y : StandardRecord => x.doi_norm ≠ y.doi_norm) :=
    fun _ _ h => Ne.symm h
  have := hpw.forall hsym hb hamem hne
  rw [hka, hkb] at this
  exact this rfl

/-- C2: for two records forming the whole group of a nonempty normalized
DOI `d` in the merged frame, when the source of `a` appears earlier in
the precedence list than the source of `b`, `a` survives DOI-based
deduplication and `b` does not — in either arrival order of the two
records. -/
theorem doi_precedence_property (prec : List String) (frames : List (List RawRow))
    (a b : StandardRecord) (d : String) (ia ib : Nat)
    (hd : d ≠ "")
    (hg : (buildMerged prec frames).filter (keyIs (fun r => r.doi_norm) d) = [a, b] ∨
          (buildMerged prec frames).filter (keyIs (fun r => r.doi_norm) d) = [b, a])
    (hia : lastIdxOf a.source prec = some ia)
    (hib : lastIdxOf b.source prec = some ib)
    (hlt : ia < ib) :
    a ∈ dedup_doi (buildMerged prec frames) ∧ b ∉ dedup_doi (buildMerged prec frames) := by
  have hamem : a ∈ buildMerged prec frames := by
    rcases hg with hg | hg <;>
      exact List.mem_of_mem_filter (by rw [hg]; simp)
  have hbmem0 : b ∈ buildMerged prec frames := by
    rcases hg with hg | hg <;>
      exact List.mem_of_mem_filter (by rw [hg]; simp)
  have hra : a.source_rank = ia := by
    rw [source_rank_eq hamem]
    simp [precRank, hia]
  have hrb : b.source_rank = ib := by
    rw [source_rank_eq hbmem0]
    simp [precRank, hib]
  have hfind : firstMin ((buildMerged prec frames).filter
      (keyIs (fun r => r.doi_norm) d)) = some a := by
    rcases hg with hg | hg
    · rw [hg, firstMin_pair, if_pos (by omega)]
    · rw [hg, firstMin_pair, if_neg (by omega)]
  have hbmem : b ∈ (buildMerged prec frames).filter (keyIs (fun r => r.doi_norm) d) := by
    rcases hg with hg | hg <;> rw [hg] <;> simp
  exact dedup_doi_survivor hd hfind hbmem (fun he => by rw [he] at hrb; omega)

/-- Witness for C2 at a concrete run: the IEEE Xplore row arrives first
but the Scopus row (earlier in the default precedence list, same
normalized DOI) survives. -/
theorem doi_precedence_property_witness :
    addDerived defaultPrecedence wRowScopus ∈
      dedup_doi (buildMerged defaultPrecedence [[wRowIeee], [wRowScopus]]) ∧
    addDerived defaultPrecedence wRowIeee ∉
      dedup_doi (buildMerged defaultPrecedence [[wRowIeee], [wRowScopus]]) :=
  doi_precedence_property defaultPrecedence [[wRowIeee], [wRowScopus]]
    (addDerived defaultPrecedence wRowScopus) (addDerived defaultPrecedence wRowIeee)
    "10.1234/x" 0 1 (by decide) (Or.inr (by decide)) (by decide) (by decide) (by decide)

/-- C3: for two distinct records of equal source rank forming the whole
group of a nonempty normalized DOI `d` in the merged frame, the record
encountered first in concatenated input order survives DOI-based
deduplication and the later one does not. -/
theorem doi_stability_property (prec : List String) (frames : List (List RawRow))
    (a b : StandardRecord) (d : String)
    (hd : d ≠ "")
    (hg : (buildMerged prec frames).filter (keyIs (fun r => r.doi_norm) d) = [a, b])
    (heq : a.source_rank = b.source_rank)
    (hne : a ≠ b) :
    a ∈ dedup_doi (buildMerged prec frames) ∧ b ∉ dedup_doi (buildMerged prec frames) := by
  have hfind : firstMin ((buildMerged prec frames).filter
      (keyIs (fun r => r.doi_norm) d)) = some a := by
    rw [hg, firstMin_pair, if_pos (le_of_eq heq)]
  have hbmem : b ∈ (buildMerged prec frames).filter (keyIs (fun r => r.doi_norm) d) := by
    rw [hg]
    simp
  exact dedup_doi_survivor hd hfind hbmem (Ne.symm hne)

/-- Witness for C3 at a concrete run: two rows from sources absent from
the precedence list (equal fallback rank), same DOI; the first-arriving
row survives. -/
theorem doi_stability_property_witness :
    addDerived defaultPrecedence wRowOtherA ∈
      dedup_doi (buildMerged defaultPrecedence [[wRowOtherA], [wRowOtherB]]) ∧
    addDerived defaultPrecedence wRowOtherB ∉
      dedup_doi (buildMerged defaultPrecedence [[wRowOtherA], [wRowOtherB]]) :=
  doi_stability_property defaultPrecedence [[wRowOtherA], [wRowOtherB]]
    (addDerived defaultPrecedence wRowOtherA) (addDerived defaultPrecedence wRowOtherB)
    "10.9999/q" (by decide) (by decide) (by decide) (by decide)

/-- C1: among the surviving records of the full dedup, any two either
both have an empty normalized DOI or have different normalized DOIs; and
any two in mixed DOI state (one empty, one nonempty) have different
normalized titles. -/
theorem dedup_postcondition (merged : List StandardRecord) :
    List.Pairwise (fun x y => (x.doi_norm = "" ∧ y.doi_norm = "") ∨ x.doi_norm ≠ y.doi_norm)
      (dedup_all merged) ∧
    List.Pairwise (fun x y =>
      ((x.doi_norm ≠ "" ∧ y.doi_norm = "") ∨ (x.doi_norm = "" ∧ y.doi_norm ≠ "")) →
        x.title_norm ≠ y.title_norm) (dedup_all merged) := by
  have hpwT : List.Pairwise (fun x y => x.title_norm ≠ y.title_norm) (dedup_all merged) := by
    unfold dedup_all drop_duplicates
    exact pairwise_ne_dropDupGo (fun r => r.title_norm) [] _
  have himp : ∀ {x y : StandardRecord}, x.title_norm ≠ y.title_norm →
      (((x.doi_norm ≠ "" ∧ y.doi_norm = "") ∨ (x.doi_norm = "" ∧ y.doi_norm ≠ "")) →
        x.title_norm ≠ y.title_norm) := fun h _ => h
  refine ⟨?_, hpwT.imp himp⟩
  have hpwD : List.Pairwise (fun x y => x.doi_norm ≠ y.doi_norm) (dedup_doi merged) := by
    unfold dedup_doi drop_duplicates
    exact pairwise_ne_dropDupGo (fun r => r.doi_norm) [] _
  have hL : List.Pairwise
      (fun x y => (x.doi_norm = "" ∧ y.doi_norm = "") ∨ x.doi_norm ≠ y.doi_norm)
      (dedup_doi merged ++
        (sort_values (fun r => r.doi_norm) merged).filter (fun r => r.doi_norm == "")) := by
    rw [List.pairwise_append]
    refine ⟨hpwD.imp (fun h => Or.inr h), ?_, ?_⟩
    · refine List.pairwise_of_forall_mem_list (fun x hx y hy => Or.inl ⟨?_, ?_⟩)
      · have := (List.mem_filter.mp hx).2
        simpa using this
      · have := (List.mem_filter.mp hy).2
        simpa using this
    · intro x hx y hy
      have hxne : x.doi_norm ≠ "" := (mem_dedup_doi_sub hx).2
      have hye : y.doi_norm = "" := by
        have := (List.mem_filter.mp hy).2
        simpa using this
      exact Or.inr (by rw [hye]; exact hxne)
  have hsym : ∀ {x y : StandardRecord},
      ((x.doi_norm = "" ∧ y.doi_norm = "") ∨ x.doi_norm ≠ y.doi_norm) →
      ((y.doi_norm = "" ∧ x.doi_norm = "") ∨ y.doi_norm ≠ x.doi_norm) := by
    rintro x y (⟨h1, h2⟩ | h)
    · exact Or.inl ⟨h2, h1⟩
    · exact Or.inr (Ne.symm h)
  have hSorted := ((List.perm_insertionSort (pairLe (fun r => r.title_norm)) _).pairwise_iff
    hsym).mpr hL
  unfold dedup_all drop_duplicates
  exact List.Pairwise.sublist (dropDupGo_sublist (fun r => r.title_norm) [] _) hSorted

/-- Helper: the full dedup never increases the count of records
satisfying any boolean predicate. -/
theorem dedup_all_countP (merged : List StandardRecord) (p : StandardRecord → Bool) :
    List.countP p (dedup_all merged) ≤ List.countP p merged := by
  have h1 : List.countP p (dedup_all merged) ≤
      List.countP p (dedup_doi merged ++
        (sort_values (fun r => r.doi_norm) merged).filter (fun r => r.doi_norm == "")) := by
    unfold dedup_all drop_duplicates
    calc List.countP p (dropDupGo (fun r => r.title_norm) [] _)
        ≤ _ := (dropDupGo_sublist (fun r => r.title_norm) [] _).countP_le _
      _ = _ := (List.perm_insertionSort (pairLe (fun r => r.title_norm)) _).countP_eq p
  have h2 : List.countP p (dedup_doi merged) ≤
      List.countP p ((sort_values (fun r => r.doi_norm) merged).filter
        (fun r => r.doi_norm != "")) := by
    unfold dedup_doi drop_duplicates
    exact (dropDupGo_sublist (fun r => r.doi_norm) [] _).countP_le _
  have hfun : (fun r : StandardRecord => r.doi_norm == "") =
      (fun r : StandardRecord => !(r.doi_norm != "")) := by
    funext r
    simp [bne]
  have h3 : List.countP p ((sort_values (fun r => r.doi_norm) merged).filter
        (fun r => r.doi_norm != "")) +
      List.countP p ((sort_values (fun r => r.doi_norm) merged).filter
        (fun r => r.doi_norm == "")) = List.countP p merged := by
    rw [hfun, ← List.countP_append]
    calc List.countP p _
        = List.countP p (sort_values (fun r => r.doi_norm) merged) :=
          (List.filter_append_perm _ _).countP_eq p
      _ = List.countP p merged :=
          (List.perm_insertionSort (pairLe (fun r => r.doi_norm)) merged).countP_eq p
  rw [List.countP_append] at h1
  omega

/-- Helper: every record of the full dedup output is a record of the
merged frame. -/
theorem mem_dedup_all {merged : List StandardRecord} {r : StandardRecord}
    (h : r ∈ dedup_all merged) : r ∈ merged := by
  unfold dedup_all drop_duplicates at h
  have h1 := (dropDupGo_sublist (fun r => r.title_norm) [] _).subset h
  have h2 := (List.perm_insertionSort (pairLe (fun r => r.title_norm)) _).subset h1
  rcases List.mem_append.mp h2 with h3 | h3
  · exact (mem_dedup_doi_sub h3).1
  · exact (List.perm_insertionSort (pairLe (fun r => r.doi_norm)) merged).subset
      (List.mem_of_mem_filter h3)

/-- C9: the dedup engine only removes records — every output record is,
field for field, a record of the merged input frame; the output size
never exceeds the input size, the removed count is non-negative, and
every per-source count never grows. -/
theorem dedup_only_removes (prec : List String) (frames : List (List RawRow)) :
    (∀ r ∈ dedup_all (buildMerged prec frames), r ∈ buildMerged prec frames) ∧
    (dedup_all (buildMerged prec frames)).length ≤ (buildMerged prec frames).length ∧
    0 ≤ ((buildMerged prec frames).length : Int) -
      ((dedup_all (buildMerged prec frames)).length : Int) ∧
    ∀ s : String, compute_stats s (dedup_all (buildMerged prec frames)) ≤
      compute_stats s (buildMerged prec frames) := by
  have hlen : (dedup_all (buildMerged prec frames)).length ≤
      (buildMerged prec frames).length := by
    have := dedup_all_countP (buildMerged prec frames) (fun _ => true)
    simpa [List.countP_true] using this
  refine ⟨fun r hr => mem_dedup_all hr, hlen, by omega, fun s => ?_⟩
  have := dedup_all_countP (buildMerged prec frames) (fun r => r.source == s)
  simpa [compute_stats, List.countP_eq_length_filter] using this

end Dedup
